import Mathlib

/-!
Verification of the selection/budgeting engine of the ResumeBuilder repository
(src/main.py).  The Python functions are shallowly embedded as executable Lean
definitions; theorems below settle the frozen claims about them.

Conventions of the embedding:
* Python dict-shaped JSON values become structures; a key that may be absent
  becomes an `Option` field and each `dict.get(key, default)` call site uses
  `Option.getD` with the very same default the source uses at that site.
* Python `list` is `List`; bullet indices coming from the oracle are `Int`
  (Python ints may be negative); loop counters are `Nat`.
* Python string truthiness (`if group:`) is modelled explicitly: the value is
  truthy iff it is neither `None` nor the empty string.
* Python `dict` built by a comprehension keeps the LAST binding for a
  duplicated key; insertion-ordered dicts are modelled as association lists.
-/

/-- Raw bullet as found in the JSON data files: either a bare string, a dict
with optional "text" and "group" keys, or any other value coerced via `str`
(the final `else` branch of `_normalize_bullet`). -/
inductive RawBullet where
  | str (s : String)
  | obj (text : Option String) (group : Option String)
  | other (repr : String)
deriving DecidableEq, Repr, Inhabited

/-- Normalized bullet: the canonical `{"text": ..., "group": ...}` dict
produced by `_normalize_bullet` (group `none` models both an absent key and
an explicit `None`, which Python's `.get("group")` cannot distinguish). -/
structure NBullet where
  text : String
  group : Option String
deriving DecidableEq, Repr, Inhabited

/-- Embedding of `_normalize_bullet` (src/main.py lines 137-146). -/
def _normalize_bullet : RawBullet → NBullet
  | RawBullet.str s => { text := s, group := none }
  | RawBullet.obj t g => { text := t.getD "", group := g }
  | RawBullet.other r => { text := r, group := none }

/-- Python truthiness of an optional string: `if group:` succeeds iff the
value is present and non-empty. -/
def pyTruthy : Option String → Option String
  | some g => if g = "" then none else some g
  | none => none

/-- Loop of `_filter_conflicting_bullets` (src/main.py lines 154-167):
`seen` is the set of groups already emitted; a bullet with a truthy group is
kept only the first time its group appears, all other bullets are kept. -/
def filterConflictAux (gg : α → Option String) (seen : List String) :
    List α → List α
  | [] => []
  | b :: rest =>
    match pyTruthy (gg b) with
    | some g =>
      if g ∈ seen then filterConflictAux gg seen rest
      else b :: filterConflictAux gg (g :: seen) rest
    | none => b :: filterConflictAux gg seen rest

/-- Embedding of `_filter_conflicting_bullets` (src/main.py lines 149-168).
The Python function works on any dict carrying a "group" key; `gg` extracts
that key from the element type in use at the call site. -/
def _filter_conflicting_bullets (gg : α → Option String) (bullets : List α) :
    List α :=
  filterConflictAux gg [] bullets

/-- The group value a bullet contributes for conflict purposes: its group if
present and non-empty, nothing otherwise. -/
def conflictGroup (gg : α → Option String) (b : α) : Option String :=
  pyTruthy (gg b)

theorem filterConflictAux_cons_none {gg : α → Option String} {b : α}
    (seen : List String) (rest : List α) (h : pyTruthy (gg b) = none) :
    filterConflictAux gg seen (b :: rest) =
      b :: filterConflictAux gg seen rest := by
  simp only [filterConflictAux, h]

theorem filterConflictAux_cons_mem {gg : α → Option String} {b : α}
    {g : String} (seen : List String) (rest : List α)
    (h : pyTruthy (gg b) = some g) (hg : g ∈ seen) :
    filterConflictAux gg seen (b :: rest) =
      filterConflictAux gg seen rest := by
  simp only [filterConflictAux, h]
  simp [hg]

theorem filterConflictAux_cons_new {gg : α → Option String} {b : α}
    {g : String} (seen : List String) (rest : List α)
    (h : pyTruthy (gg b) = some g) (hg : g ∉ seen) :
    filterConflictAux gg seen (b :: rest) =
      b :: filterConflictAux gg (g :: seen) rest := by
  simp only [filterConflictAux, h]
  simp [hg]

theorem filterConflictAux_sublist (gg : α → Option String) (seen : List String)
    (l : List α) : (filterConflictAux gg seen l).Sublist l := by
  induction l generalizing seen with
  | nil => simp [filterConflictAux]
  | cons b rest ih =>
    cases h : pyTruthy (gg b) with
    | some g =>
      by_cases hg : g ∈ seen
      · rw [filterConflictAux_cons_mem seen rest h hg]
        exact (ih seen).trans (List.sublist_cons_self b rest)
      · rw [filterConflictAux_cons_new seen rest h hg]
        exact (ih (g :: seen)).cons₂ b
    | none =>
      rw [filterConflictAux_cons_none seen rest h]
      exact (ih seen).cons₂ b

theorem filterConflictAux_filter_group (gg : α → Option String)
    (seen : List String) (l : List α) (g : String) :
    (filterConflictAux gg seen l).filter
        (fun b => conflictGroup gg b == some g) =
      if g ∈ seen then []
      else (l.filter (fun b => conflictGroup gg b == some g)).take 1 := by
  induction l generalizing seen with
  | nil => simp [filterConflictAux]
  | cons b rest ih =>
    cases h : pyTruthy (gg b) with
    | some g' =>
      by_cases hg : g' ∈ seen
      · rw [filterConflictAux_cons_mem seen rest h hg, ih seen]
        by_cases hgs : g ∈ seen
        · simp [hgs]
        · have hne : (conflictGroup gg b == some g) = false := by
            simp only [conflictGroup, h, beq_eq_false_iff_ne, ne_eq,
              Option.some.injEq]
            intro hEq
            exact hgs (hEq ▸ hg)
          simp [hgs, List.filter_cons, hne]
      · rw [filterConflictAux_cons_new seen rest h hg]
        by_cases hbg : g' = g
        · subst hbg
          have hb : (conflictGroup gg b == some g') = true := by
            simp [conflictGroup, h]
          rw [List.filter_cons, List.filter_cons]
          simp only [hb, if_pos]
          rw [ih (g' :: seen)]
          simp [hg]
        · have hb : (conflictGroup gg b == some g) = false := by
            simp only [conflictGroup, h, beq_eq_false_iff_ne, ne_eq,
              Option.some.injEq]
            exact hbg
          rw [List.filter_cons, List.filter_cons]
          simp only [hb, Bool.false_eq_true, if_neg, not_false_iff]
          rw [ih (g' :: seen)]
          have hmem : (g ∈ g' :: seen) ↔ (g ∈ seen) := by
            simp only [List.mem_cons]
            constructor
            · intro hc
              cases hc with
              | inl hEq => exact absurd hEq.symm hbg
              | inr hs => exact hs
            · exact Or.inr
          by_cases hgs : g ∈ seen
          · simp [hgs, hmem.mpr hgs]
          · simp only [hgs, if_neg, not_false_iff]
            rw [if_neg (fun hc => hgs (hmem.mp hc))]
    | none =>
      have hb : (conflictGroup gg b == some g) = false := by
        simp [conflictGroup, h]
      rw [filterConflictAux_cons_none seen rest h,
        List.filter_cons, List.filter_cons]
      simp only [hb, Bool.false_eq_true, if_neg, not_false_iff]
      exact ih seen

theorem filterConflictAux_filter_nogroup (gg : α → Option String)
    (seen : List String) (l : List α) :
    (filterConflictAux gg seen l).filter
        (fun b => (conflictGroup gg b).isNone) =
      l.filter (fun b => (conflictGroup gg b).isNone) := by
  induction l generalizing seen with
  | nil => simp [filterConflictAux]
  | cons b rest ih =>
    cases h : pyTruthy (gg b) with
    | some g' =>
      have hb : (conflictGroup gg b).isNone = false := by
        simp [conflictGroup, h]
      by_cases hg : g' ∈ seen
      · rw [filterConflictAux_cons_mem seen rest h hg, ih seen,
          List.filter_cons]
        simp [hb]
      · rw [filterConflictAux_cons_new seen rest h hg,
          List.filter_cons, List.filter_cons]
        simp only [hb, Bool.false_eq_true, if_neg, not_false_iff]
        exact ih (g' :: seen)
    | none =>
      have hb : (conflictGroup gg b).isNone = true := by
        simp [conflictGroup, h]
      rw [filterConflictAux_cons_none seen rest h,
        List.filter_cons, List.filter_cons]
      simp only [hb, if_pos]
      rw [ih seen]

/-- C1: for every ordered sequence of normalized bullets of one entry, the
Group Conflict Resolver output is a subsequence of its input preserving
relative order, contains at most one bullet per distinct non-empty group
value — exactly the first occurrence in input order — and keeps every bullet
that has no (truthy) group. -/
theorem group_conflict_resolver_correct (bullets : List NBullet) :
    (_filter_conflicting_bullets NBullet.group bullets).Sublist bullets ∧
    (∀ g : String, g ≠ "" →
      (_filter_conflicting_bullets NBullet.group bullets).filter
          (fun b => conflictGroup NBullet.group b == some g) =
        (bullets.filter
          (fun b => conflictGroup NBullet.group b == some g)).take 1) ∧
    (_filter_conflicting_bullets NBullet.group bullets).filter
        (fun b => (conflictGroup NBullet.group b).isNone) =
      bullets.filter (fun b => (conflictGroup NBullet.group b).isNone) := by
  refine ⟨filterConflictAux_sublist _ _ _, fun g _ => ?_,
    filterConflictAux_filter_nogroup _ _ _⟩
  rw [_filter_conflicting_bullets, filterConflictAux_filter_group]
  simp

/-- Witness for C1 at a concrete input: two bullets sharing group "g1", one
ungrouped bullet; the resolver keeps the first "g1" bullet and the ungrouped
one. -/
theorem group_conflict_resolver_correct_witness :
    ("g1" : String) ≠ "" ∧
    (_filter_conflicting_bullets NBullet.group
        [⟨"A", some "g1"⟩, ⟨"B", some "g1"⟩, ⟨"C", none⟩]).filter
        (fun b => conflictGroup NBullet.group b == some "g1") =
      ([⟨"A", some "g1"⟩, ⟨"B", some "g1"⟩, ⟨"C", none⟩].filter
        (fun b => conflictGroup NBullet.group b == some "g1")).take 1 := by
  refine ⟨by decide, ?_⟩
  exact (group_conflict_resolver_correct
    [⟨"A", some "g1"⟩, ⟨"B", some "g1"⟩, ⟨"C", none⟩]).2.1 "g1" (by decide)

/-- Whitespace in the sense of Python str.split and str.strip (ASCII range):
space, tab, newline, carriage return, vertical tab, form feed. -/
def isSpaceChar (c : Char) : Bool :=
  c = ' ' || c = '\t' || c = '\n' || c = '\r' || c = '\x0b' || c = '\x0c'

/-- ASCII digit test, the characters matched by the regex digit class. -/
def isDigitChar (c : Char) : Bool :=
  48 ≤ c.toNat && c.toNat ≤ 57

/-- Tokenizer equivalent to Python str.split with no arguments: split on runs
of whitespace, discarding empty pieces; `acc` holds the current token
reversed. -/
def splitWsAux : List Char → List Char → List (List Char)
  | [], acc => if acc = [] then [] else [acc.reverse]
  | c :: rest, acc =>
    if isSpaceChar c then
      if acc = [] then splitWsAux rest []
      else acc.reverse :: splitWsAux rest []
    else splitWsAux rest (c :: acc)

/-- Test for the regex of `_parse_date_for_sorting`: exactly four ASCII
digits. -/
def isYearTok (t : List Char) : Bool :=
  t.length = 4 && t.all isDigitChar

/-- Decimal value of a digit token, Python `int(part)`. -/
def yearVal (t : List Char) : Nat :=
  t.foldl (fun n c => n * 10 + (c.toNat - 48)) 0

/-- The `months` dict of `_parse_date_for_sorting` (src/main.py lines
239-244), keys already lowercase as in the source. -/
def monthsTable : List (List Char × Nat) :=
  [("jan".toList, 1), ("january".toList, 1), ("feb".toList, 2),
   ("february".toList, 2), ("mar".toList, 3), ("march".toList, 3),
   ("apr".toList, 4), ("april".toList, 4), ("may".toList, 5),
   ("jun".toList, 6), ("june".toList, 6), ("jul".toList, 7),
   ("july".toList, 7), ("aug".toList, 8), ("august".toList, 8),
   ("sep".toList, 9), ("september".toList, 9), ("oct".toList, 10),
   ("october".toList, 10), ("nov".toList, 11), ("november".toList, 11),
   ("dec".toList, 12), ("december".toList, 12)]

/-- Dictionary lookup, first (only) matching key wins. -/
def monthLookup : List (List Char × Nat) → List Char → Option Nat
  | [], _ => none
  | (k, v) :: rest, t => if k == t then some v else monthLookup rest t

/-- Month value of a token: Python `part in months` / `months[part]`. -/
def monthValue (t : List Char) : Option Nat :=
  monthLookup monthsTable t

/-- The token loop of `_parse_date_for_sorting` (src/main.py lines 251-257):
a 4-digit token overwrites the year, a month-name token overwrites the
month, anything else is ignored. -/
def dateScan : List (List Char) → Nat × Nat → Nat × Nat
  | [], ym => ym
  | t :: rest, ym =>
    if isYearTok t then dateScan rest (yearVal t, ym.2)
    else
      match monthValue t with
      | some mv => dateScan rest (ym.1, mv)
      | none => dateScan rest ym

/-- The exact strings recognized as a current-date marker, lowercase. -/
def presentLits : List (List Char) :=
  ["present".toList, "current".toList, "now".toList]

/-- Final adjustment of `_parse_date_for_sorting` (src/main.py lines
259-263): a year with no month defaults the month to December. -/
def dateFinalize (p : Nat × Nat) : Nat × Nat :=
  if 0 < p.1 ∧ p.2 = 0 then (p.1, 12) else p

/-- Embedding of `_parse_date_for_sorting` (src/main.py lines 228-263). -/
def _parse_date_for_sorting (s : String) : Nat × Nat :=
  if s.toList.all isSpaceChar then (0, 0)
  else if (s.toList.map Char.toLower) ∈ presentLits then (9999, 12)
  else dateFinalize (dateScan (splitWsAux (s.toList.map Char.toLower) []) (0, 0))

/-- Strict lexicographic order on (year, month) keys, the order Python uses
to compare the tuples returned by `_parse_date_for_sorting`. -/
def dkLT (a b : Nat × Nat) : Prop :=
  a.1 < b.1 ∨ (a.1 = b.1 ∧ a.2 < b.2)

instance (a b : Nat × Nat) : Decidable (dkLT a b) := by
  unfold dkLT
  infer_instance


theorem monthLookup_le (table : List (List Char × Nat)) (t : List Char)
    (v : Nat) (hall : ∀ p ∈ table, p.2 ≤ 12)
    (h : monthLookup table t = some v) : v ≤ 12 := by
  induction table with
  | nil => simp [monthLookup] at h
  | cons p rest ih =>
    obtain ⟨k, w⟩ := p
    simp only [monthLookup] at h
    by_cases hk : (k == t) = true
    · rw [if_pos hk] at h
      cases h
      exact hall (k, v) (List.mem_cons_self _ _)
    · rw [if_neg hk] at h
      exact ih (fun q hq => hall q (List.mem_cons_of_mem _ hq)) h

theorem monthValue_le (t : List Char) (v : Nat)
    (h : monthValue t = some v) : v ≤ 12 :=
  monthLookup_le monthsTable t v (by decide) h

theorem monthLookup_none_of_year (table : List (List Char × Nat))
    (t : List Char) (hall : ∀ p ∈ table, isYearTok p.1 = false)
    (ht : isYearTok t = true) : monthLookup table t = none := by
  induction table with
  | nil => simp [monthLookup]
  | cons p rest ih =>
    obtain ⟨k, w⟩ := p
    simp only [monthLookup]
    by_cases hk : (k == t) = true
    · exfalso
      have hkt : k = t := by simpa using hk
      have := hall (k, w) (List.mem_cons_self _ _)
      rw [hkt, ht] at this
      exact Bool.true_eq_false.mp this
    · rw [if_neg hk]
      exact ih (fun q hq => hall q (List.mem_cons_of_mem _ hq))

theorem monthValue_none_of_year (t : List Char) (ht : isYearTok t = true) :
    monthValue t = none :=
  monthLookup_none_of_year monthsTable t (by decide) ht

theorem yearVal_le_of_isYearTok (t : List Char) (h : isYearTok t = true) :
    yearVal t ≤ 9999 := by
  have hlen : t.length = 4 := by
    simp only [isYearTok, Bool.and_eq_true, decide_eq_true_eq] at h
    exact h.1
  have hdig : ∀ c ∈ t, isDigitChar c = true := by
    simp only [isYearTok, Bool.and_eq_true, List.all_eq_true] at h
    exact h.2
  match t, hlen with
  | [a, b, c, d], _ =>
    have ha := hdig a (by simp)
    have hb := hdig b (by simp)
    have hc := hdig c (by simp)
    have hd := hdig d (by simp)
    simp only [isDigitChar, Bool.and_eq_true, decide_eq_true_eq] at ha hb hc hd
    simp only [yearVal, List.foldl_cons, List.foldl_nil]
    omega

theorem dateScan_bounds (toks : List (List Char)) (y m : Nat)
    (hy : y ≤ 9999) (hm : m ≤ 12) :
    (dateScan toks (y, m)).1 ≤ 9999 ∧ (dateScan toks (y, m)).2 ≤ 12 := by
  induction toks generalizing y m with
  | nil => exact ⟨hy, hm⟩
  | cons t rest ih =>
    simp only [dateScan]
    by_cases ht : isYearTok t = true
    · rw [if_pos ht]
      exact ih (yearVal t) m (yearVal_le_of_isYearTok t ht) hm
    · rw [if_neg ht]
      cases hmv : monthValue t with
      | some mv => exact ih y mv hy (monthValue_le t mv hmv)
      | none => exact ih y m hy hm

theorem parse_date_bounds (s : String) :
    (_parse_date_for_sorting s).1 ≤ 9999 ∧
    (_parse_date_for_sorting s).2 ≤ 12 := by
  have hb := dateScan_bounds (splitWsAux (s.toList.map Char.toLower) [])
    0 0 (by omega) (by omega)
  unfold _parse_date_for_sorting dateFinalize
  split
  · exact ⟨by omega, by omega⟩
  · split
    · exact ⟨by omega, by omega⟩
    · split
      · exact ⟨hb.1, by omega⟩
      · exact hb

/-- C4 counterexample: the label "Dec 9999" is a parsed real date whose key
equals the "present" sentinel (9999, 12), so the sentinel does not rank
strictly above every parsed real date. -/
theorem present_not_strictly_above_all_dates :
    _parse_date_for_sorting "Dec 9999" = (9999, 12) ∧
    _parse_date_for_sorting "present" = (9999, 12) ∧
    ¬ dkLT (_parse_date_for_sorting "Dec 9999")
      (_parse_date_for_sorting "present") := by
  refine ⟨by decide, by decide, by decide⟩

/-- C4 amended: blank labels map to (0, 0); the exact case-insensitive
literals "present"/"current"/"now" map to (9999, 12); the spec's three
concrete examples hold; the sentinel (9999, 12) ranks strictly above every
parsed key other than itself, and (0, 0) ranks strictly below every parsed
key other than itself. -/
theorem date_ordering_key_correct :
    (∀ s : String, s.toList.all isSpaceChar = true →
      _parse_date_for_sorting s = (0, 0)) ∧
    (∀ s : String, s.toList.all isSpaceChar = false →
      (s.toList.map Char.toLower) ∈ presentLits →
      _parse_date_for_sorting s = (9999, 12)) ∧
    (_parse_date_for_sorting "Jan 2024" = (2024, 1) ∧
     _parse_date_for_sorting "2024" = (2024, 12) ∧
     _parse_date_for_sorting "March" = (0, 3)) ∧
    (∀ s : String, _parse_date_for_sorting s ≠ (0, 0) →
      _parse_date_for_sorting s ≠ (9999, 12) →
      dkLT (_parse_date_for_sorting s) (9999, 12)) ∧
    (∀ s : String, _parse_date_for_sorting s ≠ (0, 0) →
      dkLT (0, 0) (_parse_date_for_sorting s)) := by
  refine ⟨?_, ?_, ⟨by decide, by decide, by decide⟩, ?_, ?_⟩
  · intro s h
    unfold _parse_date_for_sorting
    rw [if_pos h]
  · intro s h1 h2
    unfold _parse_date_for_sorting
    rw [if_neg (by rw [h1]; simp), if_pos h2]
  · intro s h1 h2
    have hb := parse_date_bounds s
    rcases hp : _parse_date_for_sorting s with ⟨y, m⟩
    rw [hp] at h1 h2 hb
    have hym : ¬ (y = 9999 ∧ m = 12) := by
      intro hc
      exact h2 (by rw [hc.1, hc.2])
    by_cases hy : y = 9999
    · subst hy
      exact Or.inr ⟨rfl, by omega⟩
    · exact Or.inl (by omega)
  · intro s h1
    rcases hp : _parse_date_for_sorting s with ⟨y, m⟩
    rw [hp] at h1
    have hym : ¬ (y = 0 ∧ m = 0) := by
      intro hc
      exact h1 (by rw [hc.1, hc.2])
    by_cases hy : y = 0
    · subst hy
      exact Or.inr ⟨rfl, by omega⟩
    · exact Or.inl (by omega)

/-- Witness for C4 amended at concrete labels. -/
theorem date_ordering_key_correct_witness :
    _parse_date_for_sorting "   " = (0, 0) ∧
    _parse_date_for_sorting "Present" = (9999, 12) ∧
    dkLT (_parse_date_for_sorting "Jan 2024") (9999, 12) ∧
    dkLT (0, 0) (_parse_date_for_sorting "Jan 2024") :=
  ⟨date_ordering_key_correct.1 "   " (by decide),
   date_ordering_key_correct.2.1 "Present" (by decide) (by decide),
   date_ordering_key_correct.2.2.2.1 "Jan 2024" (by decide) (by decide),
   date_ordering_key_correct.2.2.2.2 "Jan 2024" (by decide)⟩

/-- Year contribution of one token: its value when it is a 4-digit token. -/
def yearTokVal (t : List Char) : Option Nat :=
  if isYearTok t then some (yearVal t) else none

/-- Modelled from the spec side for comparison: the year of a token list is
the value of its last 4-digit token, defaulting to 0. -/
def lastYearSpec (toks : List (List Char)) : Nat :=
  (toks.filterMap yearTokVal).getLastD 0

/-- Modelled from the spec side for comparison: the month of a token list is
the value of its last recognized month-name token, defaulting to 0. -/
def lastMonthSpec (toks : List (List Char)) : Nat :=
  (toks.filterMap monthValue).getLastD 0

/-- Modelled from the spec side for comparison: the date key determined by
the tokens alone, with the December default for a year without month. -/
def dateKeySpec (toks : List (List Char)) : Nat × Nat :=
  dateFinalize (lastYearSpec toks, lastMonthSpec toks)

theorem filterMap_cons_eq_some {f : α → Option β} {a : α} {b : β}
    (l : List α) (h : f a = some b) :
    List.filterMap f (a :: l) = b :: List.filterMap f l := by
  simp [List.filterMap_cons, h]

theorem filterMap_cons_eq_none {f : α → Option β} {a : α}
    (l : List α) (h : f a = none) :
    List.filterMap f (a :: l) = List.filterMap f l := by
  simp [List.filterMap_cons, h]

theorem getLastD_cons_eq (a d : β) (l : List β) :
    (a :: l).getLastD d = l.getLastD a := by
  cases l <;> simp [List.getLastD]

theorem dateScan_eq_lasts (toks : List (List Char)) (y m : Nat) :
    dateScan toks (y, m) =
      ((toks.filterMap yearTokVal).getLastD y,
       (toks.filterMap monthValue).getLastD m) := by
  induction toks generalizing y m with
  | nil => simp [dateScan]
  | cons t rest ih =>
    simp only [dateScan]
    by_cases ht : isYearTok t = true
    · have hy : yearTokVal t = some (yearVal t) := by
        simp [yearTokVal, ht]
      have hm : monthValue t = none := monthValue_none_of_year t ht
      rw [if_pos ht, ih (yearVal t) m, filterMap_cons_eq_some rest hy,
        filterMap_cons_eq_none rest hm, getLastD_cons_eq]
    · have hy : yearTokVal t = none := by
        simp [yearTokVal, ht]
      rw [if_neg ht]
      cases hmv : monthValue t with
      | some mv =>
        show dateScan rest (y, mv) = _
        rw [ih y mv, filterMap_cons_eq_none rest hy,
          filterMap_cons_eq_some rest hmv, getLastD_cons_eq]
      | none =>
        show dateScan rest (y, m) = _
        rw [ih y m, filterMap_cons_eq_none rest hy,
          filterMap_cons_eq_none rest hmv]

/-- C10: for every non-blank label that is not exactly a present-marker, the
key is determined solely by the whitespace-separated tokens of the lowered
label, taking the last 4-digit token as year and the last month-name token
as month; a range label such as "Jan 2024 -- Present" yields (2024, 1), so
an embedded present marker is ignored and does not make the label sort as
most recent. -/
theorem date_key_token_scan (s : String)
    (h1 : s.toList.all isSpaceChar = false)
    (h2 : (s.toList.map Char.toLower) ∉ presentLits) :
    _parse_date_for_sorting s =
      dateKeySpec (splitWsAux (s.toList.map Char.toLower) []) ∧
    _parse_date_for_sorting "Jan 2024 -- Present" = (2024, 1) ∧
    _parse_date_for_sorting "Jan 2024 -- Present" ≠
      _parse_date_for_sorting "Present" := by
  refine ⟨?_, by decide, by decide⟩
  unfold _parse_date_for_sorting
  rw [if_neg (by rw [h1]; simp), if_neg h2]
  rw [dateKeySpec, dateScan_eq_lasts]
  rfl

/-- Witness for C10 at the concrete range label. -/
theorem date_key_token_scan_witness :
    _parse_date_for_sorting "Jan 2024 -- Present" =
      dateKeySpec
        (splitWsAux ("Jan 2024 -- Present".toList.map Char.toLower) []) :=
  (date_key_token_scan "Jan 2024 -- Present" (by decide) (by decide)).1

/-- Entry record: one job or project dict from the JSON pools.  Fields read
with a constant default everywhere are plain `String`; fields whose default
differs between call sites, or whose absence matters, are `Option`.  The
"links" objects are only passed through to the out-of-scope renderer and are
abstracted as opaque strings. -/
structure Entry where
  id : String
  title : String
  company : String
  location : String
  name : String
  start_date : Option String
  end_date : Option String
  priority : Option Int
  bullets : List RawBullet
  link : Option String
  links : Option (List String)
deriving DecidableEq, Repr, Inhabited

/-- Conflict group of the bullet at original index `i` of a bullet list,
after normalization and Python truthiness; out-of-range indices yield no
group (they are never consulted unguarded in the source). -/
def bulletGroupAt (all : List RawBullet) (i : Nat) : Option String :=
  pyTruthy (_normalize_bullet (all.getD i default)).group

/-- One step of the `used_groups` accumulation of `_fill_bullets_to_minimum`
(src/main.py lines 195-201): an in-range index contributes the truthy group
of its bullet. -/
def usedGroupsStep (all : List RawBullet) (acc : List String) (idx : Int) :
    List String :=
  if 0 ≤ idx ∧ idx < (all.length : Int) then
    match bulletGroupAt all idx.toNat with
    | some g => g :: acc
    | none => acc
  else acc

/-- The `used_groups` set computed by `_fill_bullets_to_minimum`
(src/main.py lines 194-201): groups of the in-range currently selected
bullets; modelled as a list consulted only through membership. -/
def usedGroupsInit (all : List RawBullet) (cur : List Int) : List String :=
  cur.foldl (usedGroupsStep all) []

/-- The scan loop of `_fill_bullets_to_minimum` (src/main.py lines 204-225):
walk original indices in ascending order; skip an index already selected;
stop once the accumulated list reaches the floor; skip a bullet whose group
is already used; otherwise append the index and record its group. -/
def fillGo (all : List RawBullet) (cur : List Int) (actualMin : Nat) :
    List Nat → List Int → List String → List Int
  | [], acc, _ => acc
  | idx :: rest, acc, used =>
    if (idx : Int) ∈ cur then fillGo all cur actualMin rest acc used
    else if actualMin ≤ acc.length then acc
    else
      match bulletGroupAt all idx with
      | some g =>
        if g ∈ used then fillGo all cur actualMin rest acc used
        else fillGo all cur actualMin rest (acc ++ [(idx : Int)]) (g :: used)
      | none => fillGo all cur actualMin rest (acc ++ [(idx : Int)]) used

/-- Embedding of `_fill_bullets_to_minimum` (src/main.py lines 171-225). -/
def _fill_bullets_to_minimum (entry_data : Entry)
    (current_bullet_indices : List Int) (min_bullets : Nat) : List Int :=
  if entry_data.bullets.length = 0 then current_bullet_indices
  else if min min_bullets entry_data.bullets.length ≤
      current_bullet_indices.length then
    current_bullet_indices
  else
    fillGo entry_data.bullets current_bullet_indices
      (min min_bullets entry_data.bullets.length)
      (List.range entry_data.bullets.length)
      current_bullet_indices
      (usedGroupsInit entry_data.bullets current_bullet_indices)

theorem fillGo_spec (all : List RawBullet) (cur : List Int) (actualMin : Nat)
    (rest : List Nat) (acc : List Int) (used : List String) :
    ∃ l : List Nat,
      l.Sublist rest ∧
      fillGo all cur actualMin rest acc used =
        acc ++ l.map Int.ofNat ∧
      (∀ n ∈ l, (n : Int) ∉ cur) ∧
      (fillGo all cur actualMin rest acc used).length ≤
        max acc.length actualMin ∧
      (l.filterMap (bulletGroupAt all)).Nodup ∧
      (∀ g ∈ l.filterMap (bulletGroupAt all), g ∉ used) := by
  induction rest generalizing acc used with
  | nil =>
    refine ⟨[], List.Sublist.refl _, by simp [fillGo], by simp, ?_, by simp,
      by simp⟩
    simp only [fillGo]
    omega
  | cons idx rest ih =>
    by_cases hmem : (idx : Int) ∈ cur
    · obtain ⟨l, hsub, heq, hcur, hlen, hnd, hused⟩ := ih acc used
      refine ⟨l, hsub.cons idx, ?_, hcur, ?_, hnd, hused⟩
      · rw [fillGo, if_pos hmem, heq]
      · rw [fillGo, if_pos hmem]
        exact hlen
    · by_cases hbreak : actualMin ≤ acc.length
      · refine ⟨[], List.nil_sublist _, ?_, by simp, ?_, by simp, by simp⟩
        · rw [fillGo, if_neg hmem, if_pos hbreak]
          simp
        · rw [fillGo, if_neg hmem, if_pos hbreak]
          omega
      · cases hgrp : bulletGroupAt all idx with
        | some g =>
          by_cases hg : g ∈ used
          · obtain ⟨l, hsub, heq, hcur, hlen, hnd, hused⟩ := ih acc used
            refine ⟨l, hsub.cons idx, ?_, hcur, ?_, hnd, hused⟩
            · rw [fillGo, if_neg hmem, if_neg hbreak, hgrp]
              simp only [hg, if_pos]
              exact heq
            · rw [fillGo, if_neg hmem, if_neg hbreak, hgrp]
              simp only [hg, if_pos]
              exact hlen
          · obtain ⟨l, hsub, heq, hcur, hlen, hnd, hused⟩ :=
              ih (acc ++ [(idx : Int)]) (g :: used)
            have hstep : fillGo all cur actualMin (idx :: rest) acc used =
                fillGo all cur actualMin rest (acc ++ [(idx : Int)])
                  (g :: used) := by
              rw [fillGo, if_neg hmem, if_neg hbreak, hgrp]
              simp only [hg, if_neg, not_false_iff]
            refine ⟨idx :: l, hsub.cons₂ idx, ?_, ?_, ?_, ?_, ?_⟩
            · rw [hstep, heq]
              simp
            · intro n hn
              cases hn with
              | head => exact hmem
              | tail _ hn => exact hcur n hn
            · rw [hstep]
              have h1 : (acc ++ [(idx : Int)]).length = acc.length + 1 := by
                simp
              rw [h1] at hlen
              omega
            · rw [List.filterMap_cons, hgrp]
              refine List.Nodup.cons ?_ hnd
              intro hc
              exact (hused g hc) (List.mem_cons_self g used)
            · intro g' hg'
              rw [List.filterMap_cons, hgrp] at hg'
              cases hg' with
              | head => exact hg
              | tail _ hg' =>
                intro hc
                exact (hused g' hg') (List.mem_cons_of_mem g hc)
        | none =>
          obtain ⟨l, hsub, heq, hcur, hlen, hnd, hused⟩ :=
            ih (acc ++ [(idx : Int)]) used
          have hstep : fillGo all cur actualMin (idx :: rest) acc used =
              fillGo all cur actualMin rest (acc ++ [(idx : Int)]) used := by
            rw [fillGo, if_neg hmem, if_neg hbreak, hgrp]
          refine ⟨idx :: l, hsub.cons₂ idx, ?_, ?_, ?_, ?_, ?_⟩
          · rw [hstep, heq]
            simp
          · intro n hn
            cases hn with
            | head => exact hmem
            | tail _ hn => exact hcur n hn
          · rw [hstep]
            have h1 : (acc ++ [(idx : Int)]).length = acc.length + 1 := by
              simp
            rw [h1] at hlen
            omega
          · rw [List.filterMap_cons, hgrp]
            exact hnd
          · intro g' hg'
            rw [List.filterMap_cons, hgrp] at hg'
            exact hused g' hg'

/-- C5: backfill only appends original indices that are not already
selected, in ascending original-index order and all within range; the
appended indices carry pairwise-distinct groups, none of which is already
represented among the in-range currently selected bullets; and the result
length never exceeds max(input length, min(floor, available)). -/
theorem backfill_appends_correctly (entry_data : Entry)
    (current_bullet_indices : List Int) (min_bullets : Nat) :
    ∃ app : List Nat,
      _fill_bullets_to_minimum entry_data current_bullet_indices min_bullets =
        current_bullet_indices ++ app.map Int.ofNat ∧
      app.Pairwise (· < ·) ∧
      (∀ n ∈ app, n < entry_data.bullets.length ∧
        (n : Int) ∉ current_bullet_indices) ∧
      (_fill_bullets_to_minimum entry_data current_bullet_indices
          min_bullets).length ≤
        max current_bullet_indices.length
          (min min_bullets entry_data.bullets.length) ∧
      (app.filterMap (bulletGroupAt entry_data.bullets)).Nodup ∧
      (∀ g ∈ app.filterMap (bulletGroupAt entry_data.bullets),
        g ∉ usedGroupsInit entry_data.bullets current_bullet_indices) := by
  unfold _fill_bullets_to_minimum
  by_cases h0 : entry_data.bullets.length = 0
  · rw [if_pos h0]
    exact ⟨[], by simp, by simp, by simp, by simp, by simp, by simp⟩
  · rw [if_neg h0]
    by_cases h1 : min min_bullets entry_data.bullets.length ≤
        current_bullet_indices.length
    · rw [if_pos h1]
      exact ⟨[], by simp, by simp, by simp, by simp, by simp, by simp⟩
    · rw [if_neg h1]
      obtain ⟨l, hsub, heq, hcur, hlen, hnd, hused⟩ :=
        fillGo_spec entry_data.bullets current_bullet_indices
          (min min_bullets entry_data.bullets.length)
          (List.range entry_data.bullets.length) current_bullet_indices
          (usedGroupsInit entry_data.bullets current_bullet_indices)
      refine ⟨l, heq, ?_, ?_, hlen, hnd, hused⟩
      · exact List.Pairwise.sublist hsub (List.pairwise_lt_range _)
      · intro n hn
        exact ⟨List.mem_range.mp (hsub.subset hn), hcur n hn⟩

theorem bulletGroupAt_some_lt (all : List RawBullet) (i : Nat) (g : String)
    (h : bulletGroupAt all i = some g) : i < all.length := by
  by_contra hge
  have hd : all.getD i default = default := List.getD_eq_default _ _ (by omega)
  rw [bulletGroupAt, hd] at h
  simp [_normalize_bullet, pyTruthy, default] at h

theorem mem_usedGroups_foldl (all : List RawBullet) (l : List Int)
    (acc : List String) (g : String) :
    g ∈ l.foldl (usedGroupsStep all) acc ↔
      g ∈ acc ∨ ∃ idx ∈ l, 0 ≤ idx ∧ idx < (all.length : Int) ∧
        bulletGroupAt all idx.toNat = some g := by
  induction l generalizing acc with
  | nil => simp
  | cons i l ih =>
    rw [List.foldl_cons, ih]
    constructor
    · rintro (hm | ⟨idx, hidx, h1, h2, h3⟩)
      · unfold usedGroupsStep at hm
        by_cases hi : 0 ≤ i ∧ i < (all.length : Int)
        · rw [if_pos hi] at hm
          cases hgi : bulletGroupAt all i.toNat with
          | some g' =>
            simp only [hgi] at hm
            rcases List.mem_cons.mp hm with hEq | hacc
            · refine Or.inr ⟨i, List.mem_cons_self _ _, hi.1, hi.2, ?_⟩
              rw [hgi, hEq]
            · exact Or.inl hacc
          | none =>
            simp only [hgi] at hm
            exact Or.inl hm
        · rw [if_neg hi] at hm
          exact Or.inl hm
      · exact Or.inr ⟨idx, List.mem_cons_of_mem _ hidx, h1, h2, h3⟩
    · rintro (hacc | ⟨idx, hidx, h1, h2, h3⟩)
      · left
        unfold usedGroupsStep
        by_cases hi : 0 ≤ i ∧ i < (all.length : Int)
        · rw [if_pos hi]
          cases hgi : bulletGroupAt all i.toNat with
          | some g' =>
            simp only [hgi]
            exact List.mem_cons_of_mem _ hacc
          | none =>
            simp only [hgi]
            exact hacc
        · rw [if_neg hi]
          exact hacc
      · rcases List.mem_cons.mp hidx with hEq | hidx'
        · subst hEq
          left
          unfold usedGroupsStep
          rw [if_pos ⟨h1, h2⟩]
          simp only [h3]
          exact List.mem_cons_self _ _
        · exact Or.inr ⟨idx, hidx', h1, h2, h3⟩

theorem mem_usedGroupsInit (all : List RawBullet) (cur : List Int)
    (g : String) :
    g ∈ usedGroupsInit all cur ↔
      ∃ idx ∈ cur, 0 ≤ idx ∧ idx < (all.length : Int) ∧
        bulletGroupAt all idx.toNat = some g := by
  rw [usedGroupsInit, mem_usedGroups_foldl]
  simp

theorem fillGo_exhaust (all : List RawBullet) (cur : List Int)
    (actualMin : Nat) (rest : List Nat) (acc : List Int)
    (used : List String)
    (hlen : (fillGo all cur actualMin rest acc used).length < actualMin) :
    ∀ n ∈ rest, (n : Int) ∈ cur ∨
      (n : Int) ∈ fillGo all cur actualMin rest acc used ∨
      ∃ g, bulletGroupAt all n = some g ∧
        (g ∈ used ∨ ∃ j : Nat,
          (j : Int) ∈ fillGo all cur actualMin rest acc used ∧
          bulletGroupAt all j = some g) := by
  induction rest generalizing acc used with
  | nil => intro n hn; cases hn
  | cons idx rest ih =>
    intro n hn
    by_cases hmem : (idx : Int) ∈ cur
    · have hstep : fillGo all cur actualMin (idx :: rest) acc used =
          fillGo all cur actualMin rest acc used := by
        rw [fillGo, if_pos hmem]
      rw [hstep] at hlen ⊢
      cases hn with
      | head => exact Or.inl hmem
      | tail _ hn => exact ih acc used hlen n hn
    · by_cases hbreak : actualMin ≤ acc.length
      · exfalso
        have hstep : fillGo all cur actualMin (idx :: rest) acc used = acc := by
          rw [fillGo, if_neg hmem, if_pos hbreak]
        rw [hstep] at hlen
        omega
      · cases hgrp : bulletGroupAt all idx with
        | some g =>
          by_cases hg : g ∈ used
          · have hstep : fillGo all cur actualMin (idx :: rest) acc used =
                fillGo all cur actualMin rest acc used := by
              rw [fillGo, if_neg hmem, if_neg hbreak, hgrp]
              simp only [hg, if_pos]
            rw [hstep] at hlen ⊢
            cases hn with
            | head => exact Or.inr (Or.inr ⟨g, hgrp, Or.inl hg⟩)
            | tail _ hn => exact ih acc used hlen n hn
          · have hstep : fillGo all cur actualMin (idx :: rest) acc used =
                fillGo all cur actualMin rest (acc ++ [(idx : Int)])
                  (g :: used) := by
              rw [fillGo, if_neg hmem, if_neg hbreak, hgrp]
              simp only [hg, if_neg, not_false_iff]
            rw [hstep] at hlen ⊢
            have hidxres : (idx : Int) ∈
                fillGo all cur actualMin rest (acc ++ [(idx : Int)])
                  (g :: used) := by
              obtain ⟨l, _, heq, _⟩ :=
                fillGo_spec all cur actualMin rest (acc ++ [(idx : Int)])
                  (g :: used)
              rw [heq]
              exact List.mem_append_left _ (by simp)
            cases hn with
            | head => exact Or.inr (Or.inl hidxres)
            | tail _ hn =>
              rcases ih (acc ++ [(idx : Int)]) (g :: used) hlen n hn with
                h | h | ⟨g', hg', hcase⟩
              · exact Or.inl h
              · exact Or.inr (Or.inl h)
              · refine Or.inr (Or.inr ⟨g', hg', ?_⟩)
                rcases hcase with hused' | ⟨j, hj, hgj⟩
                · rcases List.mem_cons.mp hused' with hEq | hused''
                  · refine Or.inr ⟨idx, hidxres, ?_⟩
                    rw [hgrp, hEq]
                  · exact Or.inl hused''
                · exact Or.inr ⟨j, hj, hgj⟩
        | none =>
          have hstep : fillGo all cur actualMin (idx :: rest) acc used =
              fillGo all cur actualMin rest (acc ++ [(idx : Int)]) used := by
            rw [fillGo, if_neg hmem, if_neg hbreak, hgrp]
          rw [hstep] at hlen ⊢
          have hidxres : (idx : Int) ∈
              fillGo all cur actualMin rest (acc ++ [(idx : Int)]) used := by
            obtain ⟨l, _, heq, _⟩ :=
              fillGo_spec all cur actualMin rest (acc ++ [(idx : Int)]) used
            rw [heq]
            exact List.mem_append_left _ (by simp)
          cases hn with
          | head => exact Or.inr (Or.inl hidxres)
          | tail _ hn =>
            rcases ih (acc ++ [(idx : Int)]) used hlen n hn with
              h | h | h
            · exact Or.inl h
            · exact Or.inr (Or.inl h)
            · exact Or.inr (Or.inr h)

theorem fillGo_skip_all (all : List RawBullet) (cur : List Int)
    (actualMin : Nat) (rest : List Nat) (acc : List Int)
    (used : List String) :
    (∀ n ∈ rest, (n : Int) ∈ cur ∨
      ∃ g, bulletGroupAt all n = some g ∧ g ∈ used) →
    fillGo all cur actualMin rest acc used = acc := by
  induction rest with
  | nil => intro _; rfl
  | cons idx rest ih =>
    intro h
    by_cases hmem : (idx : Int) ∈ cur
    · rw [fillGo, if_pos hmem]
      exact ih (fun n hn => h n (List.mem_cons_of_mem _ hn))
    · by_cases hbreak : actualMin ≤ acc.length
      · rw [fillGo, if_neg hmem, if_pos hbreak]
      · rcases h idx (List.mem_cons_self _ _) with hc | ⟨g, hgrp, hg⟩
        · exact absurd hc hmem
        · rw [fillGo, if_neg hmem, if_neg hbreak, hgrp]
          simp only [hg, if_pos]
          exact ih (fun n hn => h n (List.mem_cons_of_mem _ hn))

/-- C6: backfill is idempotent — applying it to its own output returns that
output unchanged — and an index list already at or above
min(floor, available bullets) is returned unchanged. -/
theorem backfill_idempotent (entry_data : Entry) (cur : List Int)
    (min_bullets : Nat) :
    _fill_bullets_to_minimum entry_data
        (_fill_bullets_to_minimum entry_data cur min_bullets) min_bullets =
      _fill_bullets_to_minimum entry_data cur min_bullets ∧
    (min min_bullets entry_data.bullets.length ≤ cur.length →
      _fill_bullets_to_minimum entry_data cur min_bullets = cur) := by
  have hAtFloor : ∀ l : List Int,
      min min_bullets entry_data.bullets.length ≤ l.length →
      _fill_bullets_to_minimum entry_data l min_bullets = l := by
    intro l hl
    unfold _fill_bullets_to_minimum
    by_cases h0 : entry_data.bullets.length = 0
    · rw [if_pos h0]
    · rw [if_neg h0, if_pos hl]
  refine ⟨?_, hAtFloor cur⟩
  by_cases h0 : entry_data.bullets.length = 0
  · have hid : ∀ l : List Int,
        _fill_bullets_to_minimum entry_data l min_bullets = l := by
      intro l
      unfold _fill_bullets_to_minimum
      rw [if_pos h0]
    rw [hid, hid]
  · by_cases h1 : min min_bullets entry_data.bullets.length ≤ cur.length
    · rw [hAtFloor cur h1, hAtFloor cur h1]
    · have hr : _fill_bullets_to_minimum entry_data cur min_bullets =
          fillGo entry_data.bullets cur
            (min min_bullets entry_data.bullets.length)
            (List.range entry_data.bullets.length) cur
            (usedGroupsInit entry_data.bullets cur) := by
        unfold _fill_bullets_to_minimum
        rw [if_neg h0, if_neg h1]
      by_cases h2 : min min_bullets entry_data.bullets.length ≤
          (_fill_bullets_to_minimum entry_data cur min_bullets).length
      · exact hAtFloor _ h2
      · obtain ⟨l, hsub, heq, hcur, hlen, hnd, hused⟩ :=
          fillGo_spec entry_data.bullets cur
            (min min_bullets entry_data.bullets.length)
            (List.range entry_data.bullets.length) cur
            (usedGroupsInit entry_data.bullets cur)
        have hlen2 : (fillGo entry_data.bullets cur
              (min min_bullets entry_data.bullets.length)
              (List.range entry_data.bullets.length) cur
              (usedGroupsInit entry_data.bullets cur)).length <
            min min_bullets entry_data.bullets.length := by
          rw [← hr]
          omega
        have hexh := fillGo_exhaust entry_data.bullets cur
          (min min_bullets entry_data.bullets.length)
          (List.range entry_data.bullets.length) cur
          (usedGroupsInit entry_data.bullets cur) hlen2
        rw [hr] at h2
        rw [hr]
        unfold _fill_bullets_to_minimum
        rw [if_neg h0, if_neg h2]
        apply fillGo_skip_all
        intro n hn
        rcases hexh n hn with hc | hc | ⟨g, hgrp, hcase⟩
        · left
          rw [heq]
          exact List.mem_append_left _ hc
        · exact Or.inl hc
        · right
          refine ⟨g, hgrp, ?_⟩
          rw [mem_usedGroupsInit]
          rcases hcase with hu | ⟨j, hj, hgj⟩
          · obtain ⟨idx, hidx, hp1, hp2, hp3⟩ :=
              (mem_usedGroupsInit _ _ _).mp hu
            refine ⟨idx, ?_, hp1, hp2, hp3⟩
            rw [heq]
            exact List.mem_append_left _ hidx
          · have hjlt : j < entry_data.bullets.length :=
              bulletGroupAt_some_lt _ _ _ hgj
            refine ⟨(j : Int), hj, by exact_mod_cast Nat.zero_le j, ?_, ?_⟩
            · exact_mod_cast hjlt
            · simpa using hgj

/-- Demo entry with two bullets sharing group "g1" and one ungrouped
bullet, used to instantiate hypothesis-bearing theorems. -/
def demoEntry : Entry :=
  { id := "job1", title := "Engineer", company := "Acme", location := "",
    name := "", start_date := some "Jan 2020", end_date := some "Present",
    priority := none,
    bullets := [RawBullet.obj (some "A") (some "g1"),
      RawBullet.obj (some "B") (some "g1"), RawBullet.str "C"],
    link := none, links := none }

/-- Witness for C6 at concrete inputs. -/
theorem backfill_idempotent_witness :
    _fill_bullets_to_minimum demoEntry
        (_fill_bullets_to_minimum demoEntry [] 4) 4 =
      _fill_bullets_to_minimum demoEntry [] 4 ∧
    _fill_bullets_to_minimum demoEntry [0, 1] 2 = [0, 1] :=
  ⟨(backfill_idempotent demoEntry [] 4).1,
   (backfill_idempotent demoEntry [0, 1] 2).2 (by decide)⟩

/-- Embedding of `call_openai_rank_bullets` (src/main.py lines 57-95).  The
`oracleResult` argument models the outcome of the oracle round trip: `none`
when any exception occurs, `some r` when a response parses, where `r` is the
value of its "bullet_indices" key (defaulting to the empty list).  The
success path returns the oracle's list unchanged; the failure path falls
back to the first min(max_bullets, available) indices in original order. -/
def call_openai_rank_bullets (oracleResult : Option (List Int)) (job : Entry)
    (max_bullets : Nat) : List Int :=
  match oracleResult with
  | some r => r
  | none =>
    if job.bullets.isEmpty then []
    else (List.range (min max_bullets job.bullets.length)).map Int.ofNat

/-- C8 counterexample: a successful oracle response is returned unchanged,
so the result can exceed max_count — here a 5-element response with
max_count 4. -/
theorem rank_bullets_no_length_bound :
    ¬ (call_openai_rank_bullets (some [0, 1, 2, 3, 4]) demoEntry 4).length
      ≤ 4 := by
  decide

/-- C8 amended: the length bound holds on the failure path only — on oracle
failure the result is exactly the first min(max_count, available) indices in
original order, hence of length at most max_count, and empty when the entry
has no bullets; on success the oracle's list is returned unchanged. -/
theorem rank_bullets_fallback_correct (job : Entry) (max_bullets : Nat) :
    call_openai_rank_bullets none job max_bullets =
      (List.range (min max_bullets job.bullets.length)).map Int.ofNat ∧
    (call_openai_rank_bullets none job max_bullets).length ≤ max_bullets ∧
    (job.bullets = [] → call_openai_rank_bullets none job max_bullets = []) ∧
    (∀ r : List Int,
      call_openai_rank_bullets (some r) job max_bullets = r) := by
  refine ⟨?_, ?_, ?_, fun r => rfl⟩
  · unfold call_openai_rank_bullets
    by_cases h : job.bullets.isEmpty
    · rw [if_pos h]
      rw [List.isEmpty_iff] at h
      simp [h]
    · rw [if_neg h]
  · unfold call_openai_rank_bullets
    by_cases h : job.bullets.isEmpty
    · rw [if_pos h]
      simp
    · rw [if_neg h]
      have hl : ((List.range (min max_bullets job.bullets.length)).map
          Int.ofNat).length = min max_bullets job.bullets.length := by
        simp
      rw [hl]
      omega
  · intro h
    unfold call_openai_rank_bullets
    rw [if_pos (List.isEmpty_iff.mpr h)]

/-- Witness for C8 amended at a concrete entry. -/
theorem rank_bullets_fallback_correct_witness :
    call_openai_rank_bullets none demoEntry 4 =
      (List.range (min 4 demoEntry.bullets.length)).map Int.ofNat ∧
    call_openai_rank_bullets (some [2, 0]) demoEntry 4 = [2, 0] :=
  ⟨(rank_bullets_fallback_correct demoEntry 4).1,
   (rank_bullets_fallback_correct demoEntry 4).2.2.2 [2, 0]⟩

/-- Selection Item: `{id, bullet_indices}` as produced by the oracle or the
local defaults; indices are in ranked order. -/
structure SelItem where
  id : String
  bullet_indices : List Int
deriving DecidableEq, Repr, Inhabited

/-- The selection dict threaded through `main`: regular jobs, projects, and
the additional-experience list (empty list models an absent key, which is
all Python's truthiness tests on it can observe). -/
structure Selection where
  selected_jobs : List SelItem
  selected_projects : List SelItem
  additional_experience : List SelItem
deriving DecidableEq, Repr, Inhabited

/-- Truncation of every item of one list to at most `n` ranked indices,
Python `bullet_indices[:n]` applied in a loop. -/
def truncateItems (n : Nat) (items : List SelItem) : List SelItem :=
  items.map (fun it => { it with bullet_indices := it.bullet_indices.take n })

/-- Embedding of the truncation pass of `main` (src/main.py lines
1022-1168): branches on the number of regular professional experiences and
on presence of additional experience. -/
def applyTruncationRules (sel : Selection) : Selection :=
  if sel.selected_jobs.length = 5 then
    { selected_jobs := truncateItems 3 sel.selected_jobs,
      selected_projects := truncateItems 2 sel.selected_projects,
      additional_experience := truncateItems 3 sel.additional_experience }
  else if sel.selected_jobs.length = 4 then
    { selected_jobs := truncateItems 4 sel.selected_jobs,
      selected_projects :=
        truncateItems (if sel.additional_experience.isEmpty then 3 else 2)
          sel.selected_projects,
      additional_experience := truncateItems 3 sel.additional_experience }
  else if sel.selected_jobs.length = 3 then
    { selected_jobs := truncateItems 4 sel.selected_jobs,
      selected_projects := truncateItems 3 sel.selected_projects,
      additional_experience := truncateItems 3 sel.additional_experience }
  else
    { selected_jobs := truncateItems 4 sel.selected_jobs,
      selected_projects := truncateItems 3 sel.selected_projects,
      additional_experience := truncateItems 3 sel.additional_experience }

/-- Modelled from the spec side for comparison: the policy table mapping
regular-experience count and additional-experience presence to the quotas
(regular, additional, project). -/
def quotaTable (numProfessional : Nat) (hasAdditional : Bool) :
    Nat × Nat × Nat :=
  if numProfessional = 5 then (3, 3, 2)
  else if numProfessional = 4 then (4, 3, if hasAdditional then 2 else 3)
  else (4, 3, 3)

theorem truncateItems_mem (n : Nat) (items : List SelItem) :
    ∀ it ∈ truncateItems n items, ∃ orig ∈ items, it.id = orig.id ∧
      ∃ t, orig.bullet_indices = it.bullet_indices ++ t := by
  intro it hit
  rw [truncateItems] at hit
  obtain ⟨orig, ho, hEq⟩ := List.mem_map.mp hit
  refine ⟨orig, ho, ?_, orig.bullet_indices.drop n, ?_⟩
  · rw [← hEq]
  · rw [← hEq]
    exact (List.take_append_drop n orig.bullet_indices).symm

/-- C3: the truncation pass emits exactly the quotas of the policy table —
5 regular gives (3, 3, 2); 4 regular gives (4, 3, 2-with-additional /
3-without); 3 or any other count gives (4, 3, 3) — and every truncated item
keeps a prefix of its already-ranked bullet_indices, never any other
subset. -/
theorem budgeter_policy_table (sel : Selection) :
    (applyTruncationRules sel).selected_jobs =
      truncateItems
        (quotaTable sel.selected_jobs.length
          (!sel.additional_experience.isEmpty)).1 sel.selected_jobs ∧
    (applyTruncationRules sel).additional_experience =
      truncateItems
        (quotaTable sel.selected_jobs.length
          (!sel.additional_experience.isEmpty)).2.1
        sel.additional_experience ∧
    (applyTruncationRules sel).selected_projects =
      truncateItems
        (quotaTable sel.selected_jobs.length
          (!sel.additional_experience.isEmpty)).2.2
        sel.selected_projects ∧
    (∀ it ∈ (applyTruncationRules sel).selected_jobs,
      ∃ orig ∈ sel.selected_jobs, it.id = orig.id ∧
        ∃ t, orig.bullet_indices = it.bullet_indices ++ t) ∧
    (∀ it ∈ (applyTruncationRules sel).additional_experience,
      ∃ orig ∈ sel.additional_experience, it.id = orig.id ∧
        ∃ t, orig.bullet_indices = it.bullet_indices ++ t) ∧
    (∀ it ∈ (applyTruncationRules sel).selected_projects,
      ∃ orig ∈ sel.selected_projects, it.id = orig.id ∧
        ∃ t, orig.bullet_indices = it.bullet_indices ++ t) := by
  have htable :
      (applyTruncationRules sel).selected_jobs =
        truncateItems
          (quotaTable sel.selected_jobs.length
            (!sel.additional_experience.isEmpty)).1 sel.selected_jobs ∧
      (applyTruncationRules sel).additional_experience =
        truncateItems
          (quotaTable sel.selected_jobs.length
            (!sel.additional_experience.isEmpty)).2.1
          sel.additional_experience ∧
      (applyTruncationRules sel).selected_projects =
        truncateItems
          (quotaTable sel.selected_jobs.length
            (!sel.additional_experience.isEmpty)).2.2
          sel.selected_projects := by
    unfold applyTruncationRules quotaTable
    by_cases h5 : sel.selected_jobs.length = 5
    · simp [h5]
    · by_cases h4 : sel.selected_jobs.length = 4
      · by_cases hadd : sel.additional_experience.isEmpty
        · simp [h4, h5, hadd]
        · simp [h4, h5, hadd]
      · by_cases h3 : sel.selected_jobs.length = 3
        · simp [h3, h4, h5]
        · simp [h3, h4, h5]
  refine ⟨htable.1, htable.2.1, htable.2.2, ?_, ?_, ?_⟩
  · rw [htable.1]
    exact truncateItems_mem _ _
  · rw [htable.2.1]
    exact truncateItems_mem _ _
  · rw [htable.2.2]
    exact truncateItems_mem _ _

/-- Lexicographic strict order on a pair of date keys. -/
def dk2LT (a b : (Nat × Nat) × (Nat × Nat)) : Prop :=
  dkLT a.1 b.1 ∨ (a.1 = b.1 ∧ dkLT a.2 b.2)

instance (a b : (Nat × Nat) × (Nat × Nat)) : Decidable (dk2LT a b) := by
  unfold dk2LT
  infer_instance

/-- Lexicographic strict order on (negated priority, end key, start key),
the tuple Python compares in `_sorted_entries`. -/
def dk3LT (a b : Int × (Nat × Nat) × (Nat × Nat)) : Prop :=
  a.1 < b.1 ∨ (a.1 = b.1 ∧ dk2LT a.2 b.2)

instance (a b : Int × (Nat × Nat) × (Nat × Nat)) : Decidable (dk3LT a b) := by
  unfold dk3LT
  infer_instance

/-- Stable descending insertion: walk past strictly greater elements and
insert before the first element not greater, so that among equal keys the
earlier original element stays first — the order `sorted(..., reverse=True)`
produces. -/
def insertDesc (gt : α → α → Bool) (x : α) : List α → List α
  | [] => [x]
  | y :: ys => if gt y x then y :: insertDesc gt x ys else x :: y :: ys

/-- Stable descending insertion sort, modelling Python's stable
`sorted(..., key=..., reverse=True)`. -/
def sortDesc (gt : α → α → Bool) : List α → List α
  | [] => []
  | x :: xs => insertDesc gt x (sortDesc gt xs)

/-- Sort key of `_sorted_entries` inside `_build_default_selection`
(src/main.py lines 289-297): the negated priority and the two date keys. -/
def defaultSortKey (e : Entry) : Int × (Nat × Nat) × (Nat × Nat) :=
  (-(e.priority.getD 0),
   _parse_date_for_sorting (e.end_date.getD ""),
   _parse_date_for_sorting (e.start_date.getD ""))

/-- Strictly-greater test on entries under the default sort key. -/
def entryGT (a b : Entry) : Bool :=
  decide (dk3LT (defaultSortKey b) (defaultSortKey a))

/-- Embedding of `_sorted_entries` (src/main.py lines 287-297):
`sorted(entries, key=(-priority, end key, start key), reverse=True)`. -/
def _sorted_entries (entries : List Entry) : List Entry :=
  sortDesc entryGT entries

def DEFAULT_FALLBACK_JOBS : Nat := 4

def DEFAULT_FALLBACK_PROJECTS : Nat := 3

def DEFAULT_FALLBACK_JOB_BULLETS : Nat := 4

def DEFAULT_FALLBACK_PROJECT_BULLETS : Nat := 2

/-- Selection loop of `_build_default_selection` (src/main.py lines 304-320):
take sorted entries until the entry cap is reached, skipping entries without
bullets, giving each the first min(available, bullet cap) indices. -/
def defaultPickLoop (maxEntries maxBullets : Nat) :
    List Entry → List SelItem → List SelItem
  | [], acc => acc
  | e :: rest, acc =>
    if maxEntries ≤ acc.length then acc
    else if e.bullets.isEmpty then defaultPickLoop maxEntries maxBullets rest acc
    else defaultPickLoop maxEntries maxBullets rest
      (acc ++
        [⟨e.id, (List.range (min e.bullets.length maxBullets)).map Int.ofNat⟩])

/-- The two lists returned by `_build_default_selection`. -/
structure DefaultSelection where
  selected_jobs : List SelItem
  selected_projects : List SelItem
deriving DecidableEq, Repr, Inhabited

/-- Embedding of `_build_default_selection` (src/main.py lines 278-322). -/
def _build_default_selection (jobs : List Entry) (projects : List Entry) :
    DefaultSelection :=
  { selected_jobs := defaultPickLoop DEFAULT_FALLBACK_JOBS
      DEFAULT_FALLBACK_JOB_BULLETS (_sorted_entries jobs) [],
    selected_projects := defaultPickLoop DEFAULT_FALLBACK_PROJECTS
      DEFAULT_FALLBACK_PROJECT_BULLETS (_sorted_entries projects) [] }

/-- Entry with priority 1 and one bullet, blank dates. -/
def entryPrioOne : Entry :=
  { id := "a", title := "", company := "", location := "", name := "",
    start_date := none, end_date := none, priority := some 1,
    bullets := [RawBullet.str "x"], link := none, links := none }

/-- Entry with priority 2 and one bullet, blank dates. -/
def entryPrioTwo : Entry :=
  { id := "b", title := "", company := "", location := "", name := "",
    start_date := none, end_date := none, priority := some 2,
    bullets := [RawBullet.str "y"], link := none, links := none }

/-- C2: the local default selection orders candidates by ASCENDING priority,
not descending — the sort key already negates the priority and the
`reverse=True` flag inverts it again, so with equal (blank) dates the
priority-1 job is emitted before the priority-2 job, contradicting both the
claim and the function's own docstring ("higher first"). -/
theorem default_selection_orders_priority_ascending :
    (_build_default_selection [entryPrioOne, entryPrioTwo] []).selected_jobs.map
        SelItem.id = ["a", "b"] ∧
    ¬ ((_build_default_selection [entryPrioOne, entryPrioTwo]
        []).selected_jobs.map SelItem.id = ["b", "a"]) := by
  refine ⟨by decide, by decide⟩

/-- Source bucket tag of a collected bullet ("job", "project",
"additional_job"). -/
inductive SType where
  | job
  | project
  | additionalJob
deriving DecidableEq, Repr, Inhabited

/-- Collected bullet with metadata (src/main.py lines 352-359 and 556-563):
normalized text and group plus provenance.  The job_data/project_data fields
of the source dicts are never read downstream and are omitted. -/
structure MBullet where
  text : String
  group : Option String
  sType : SType
  source_id : String
  original_rank : Nat
  original_index : Int
deriving DecidableEq, Repr, Inhabited

/-- Python dict comprehension `{e["id"]: e for e in pool}` followed by
`.get`: the LAST entry with a given id wins. -/
def dictGet (pool : List Entry) (idv : String) : Option Entry :=
  pool.foldl (fun acc e => if e.id = idv then some e else acc) none

/-- Lookup used by the additional-experience section (src/main.py line 548):
`id_to_additional_job.get(id) or id_to_job.get(id)`. -/
def addLookup (additionalJobs jobs : List Entry) (idv : String) :
    Option Entry :=
  match dictGet additionalJobs idv with
  | some j => some j
  | none => dictGet jobs idv

/-- Collect the in-range bullets referenced by one selection item
(src/main.py lines 343-359, 362-378, 546-563): rank is the position in the
item's index list; out-of-range indices are silently skipped. -/
def collectItemBullets (look : String → Option Entry) (st : SType)
    (item : SelItem) : List MBullet :=
  match look item.id with
  | none => []
  | some job =>
    item.bullet_indices.enum.filterMap (fun p =>
      if 0 ≤ p.2 ∧ p.2 < (job.bullets.length : Int) then
        some { text := (_normalize_bullet
                 (job.bullets.getD p.2.toNat default)).text,
               group := (_normalize_bullet
                 (job.bullets.getD p.2.toNat default)).group,
               sType := st, source_id := item.id,
               original_rank := p.1, original_index := p.2 }
      else none)

/-- Append a bullet to its bucket, creating the bucket at the end on first
sight — the behavior of an insertion-ordered Python dict of lists. -/
def bucketInsert (key : String) (b : MBullet) :
    List (String × List MBullet) → List (String × List MBullet)
  | [] => [(key, [b])]
  | (k, l) :: rest =>
    if k = key then (k, l ++ [b]) :: rest
    else (k, l) :: bucketInsert key b rest

/-- Grouping of collected bullets by source_id in insertion order, keeping
only bullets whose id and type pass `cond` (src/main.py lines 404-411 use a
truthy id plus job/project type; lines 567-573 use only a truthy id). -/
def buildBucketsIf (cond : MBullet → Bool) (bullets : List MBullet) :
    List (String × List MBullet) :=
  bullets.foldl (fun acc b =>
    if cond b then bucketInsert b.source_id b acc else acc) []

/-- Bucket condition of the main section (src/main.py line 408). -/
def mainBucketCond (b : MBullet) : Bool :=
  b.source_id ≠ "" && (b.sType = SType.job || b.sType = SType.project)

/-- Bucket condition of the additional-experience section (src/main.py
line 570). -/
def addBucketCond (b : MBullet) : Bool :=
  b.source_id ≠ ""

/-- Association-list lookup, unique keys, first match wins. -/
def assocGet : List (String × β) → String → Option β
  | [], _ => none
  | (k, v) :: rest, key => if k = key then some v else assocGet rest key

/-- Python dict assignment `m[key] = v`: update in place or append. -/
def assocSet : List (String × β) → String → β → List (String × β)
  | [], key, v => [(key, v)]
  | (k, w) :: rest, key, v =>
    if k = key then (k, v) :: rest else (k, w) :: assocSet rest key v

/-- Python `m.setdefault(key, []).extend(vs)` pattern: append values to the
key's list, creating it at the end when absent. -/
def assocExtend : List (String × List β) → String → List β →
    List (String × List β)
  | [], key, vs => [(key, vs)]
  | (k, l) :: rest, key, vs =>
    if k = key then (k, l ++ vs) :: rest else (k, l) :: assocExtend rest key vs

/-- The three maps filled by the main filtering loop (src/main.py lines
399-433). -/
structure BulletMaps where
  jobMap : List (String × List (Nat × String))
  projMap : List (String × List (Nat × String))
  keptMap : List (String × List Int)
deriving DecidableEq, Repr, Inhabited

/-- Per-bucket group filtering and distribution (src/main.py lines 413-433):
filter the bucket, record kept indices for jobs, and append (rank, text)
pairs to the map matching the FIRST bullet's source type. -/
def processBucket (maps : BulletMaps) (bucket : String × List MBullet) :
    BulletMaps :=
  match bucket.2 with
  | [] => maps
  | b0 :: _ =>
    match b0.sType with
    | SType.job =>
      { jobMap := assocExtend maps.jobMap bucket.1
          ((_filter_conflicting_bullets MBullet.group bucket.2).map
            (fun b => (b.original_rank, b.text))),
        projMap := maps.projMap,
        keptMap := assocSet maps.keptMap bucket.1
          ((_filter_conflicting_bullets MBullet.group bucket.2).map
            (fun b => b.original_index)) }
    | SType.project =>
      { jobMap := maps.jobMap,
        projMap := assocExtend maps.projMap bucket.1
          ((_filter_conflicting_bullets MBullet.group bucket.2).map
            (fun b => (b.original_rank, b.text))),
        keptMap := maps.keptMap }
    | SType.additionalJob => maps

/-- The two maps filled by the additional-experience filtering loop
(src/main.py lines 576-587). -/
structure AddMaps where
  addMap : List (String × List (Nat × String))
  keptMap : List (String × List Int)
deriving DecidableEq, Repr, Inhabited

/-- Per-bucket group filtering for additional experience (src/main.py lines
578-587). -/
def processBucketAdd (maps : AddMaps) (bucket : String × List MBullet) :
    AddMaps :=
  { addMap := assocExtend maps.addMap bucket.1
      ((_filter_conflicting_bullets MBullet.group bucket.2).map
        (fun b => (b.original_rank, b.text))),
    keptMap := assocSet maps.keptMap bucket.1
      ((_filter_conflicting_bullets MBullet.group bucket.2).map
        (fun b => b.original_index)) }

/-- Stable ascending insertion on (rank, text) pairs: walk past strictly
smaller ranks, insert before the first rank not smaller, so equal ranks keep
their original order — Python's stable `list.sort(key=rank)`. -/
def insertRank (x : Nat × String) :
    List (Nat × String) → List (Nat × String)
  | [] => [x]
  | y :: ys => if y.1 < x.1 then y :: insertRank x ys else x :: y :: ys

/-- Stable ascending insertion sort on (rank, text) pairs. -/
def sortRank : List (Nat × String) → List (Nat × String)
  | [] => []
  | x :: xs => insertRank x (sortRank xs)

/-- Sort one map entry's pairs by rank and keep the texts (src/main.py
lines 438-444 and 590-592). -/
def ranksToTexts (pairs : List (Nat × String)) : List String :=
  (sortRank pairs).map (fun p => p.2)

/-- Apply `ranksToTexts` to every map entry. -/
def mapToTexts (m : List (String × List (Nat × String))) :
    List (String × List String) :=
  m.map (fun p => (p.1, ranksToTexts p.2))

/-- Rebuild bullet texts from refilled indices, skipping out-of-range ones
(src/main.py lines 460-468 and 608-615). -/
def rebuildTexts (job : Entry) (indices : List Int) : List String :=
  indices.filterMap (fun idx =>
    if 0 ≤ idx ∧ idx < (job.bullets.length : Int) then
      some (_normalize_bullet (job.bullets.getD idx.toNat default)).text
    else none)

/-- One refill step (src/main.py lines 447-468 and 596-617): when the entry
still has fewer than `floor` texts after filtering, backfill from the kept
indices and rebuild its text list. -/
def refillStep (look : String → Option Entry) (floor : Nat)
    (keptMap : List (String × List Int))
    (m : List (String × List String)) (item : SelItem) :
    List (String × List String) :=
  match look item.id with
  | none => m
  | some job =>
    if ((assocGet m item.id).getD []).length < floor then
      assocSet m item.id
        (rebuildTexts job
          (_fill_bullets_to_minimum job
            ((assocGet keptMap item.id).getD []) floor))
    else m

/-- Refill pass over all selection items of one section. -/
def refillAll (look : String → Option Entry) (floor : Nat)
    (keptMap : List (String × List Int)) (items : List SelItem)
    (m : List (String × List String)) : List (String × List String) :=
  items.foldl (refillStep look floor keptMap) m

/-- Experience entry of the rendered payload (src/main.py lines 493-500 and
627-634). -/
structure ExpPayload where
  title : String
  company : String
  location : String
  start_date : String
  end_date : String
  bullets : List String
deriving DecidableEq, Repr, Inhabited

/-- Project entry of the rendered payload (src/main.py lines 519-530);
`links` models presence of the "links" key, `link` the "link" fallback. -/
structure ProjPayload where
  name : String
  start_date : String
  end_date : String
  bullets : List String
  links : Option (List String)
  link : Option String
deriving DecidableEq, Repr, Inhabited

/-- Build the experience (or additional-experience) payload list: one entry
per selection item whose entry resolves and whose filtered text list is
non-empty (src/main.py lines 486-500 and 620-634). -/
def buildExpEntries (look : String → Option Entry) (items : List SelItem)
    (m : List (String × List String)) : List ExpPayload :=
  items.filterMap (fun item =>
    match look item.id with
    | none => none
    | some job =>
      if ((assocGet m item.id).getD []).isEmpty then none
      else some { title := job.title, company := job.company,
                  location := job.location,
                  start_date := job.start_date.getD "",
                  end_date := job.end_date.getD "Present",
                  bullets := (assocGet m item.id).getD [] })

/-- Build the projects payload list (src/main.py lines 512-530). -/
def buildProjEntries (look : String → Option Entry) (items : List SelItem)
    (m : List (String × List String)) : List ProjPayload :=
  items.filterMap (fun item =>
    match look item.id with
    | none => none
    | some pr =>
      if ((assocGet m item.id).getD []).isEmpty then none
      else some { name := pr.name, start_date := pr.start_date.getD "",
                  end_date := pr.end_date.getD "",
                  bullets := (assocGet m item.id).getD [],
                  links := pr.links,
                  link := if pr.links.isSome then none else pr.link })

/-- Sort key of the experience payload sort (src/main.py lines 502-509):
(end-date key, start-date key). -/
def expPayloadKey (e : ExpPayload) : (Nat × Nat) × (Nat × Nat) :=
  (_parse_date_for_sorting e.end_date, _parse_date_for_sorting e.start_date)

/-- Strictly-greater test for the descending experience sort. -/
def expPayloadGT (a b : ExpPayload) : Bool :=
  decide (dk2LT (expPayloadKey b) (expPayloadKey a))

/-- Sort key of the projects payload sort (src/main.py lines 532-539):
end-date or (when blank) start-date, then start-date. -/
def projPayloadKey (p : ProjPayload) : (Nat × Nat) × (Nat × Nat) :=
  (_parse_date_for_sorting
    (if p.end_date ≠ "" then p.end_date else p.start_date),
   _parse_date_for_sorting p.start_date)

/-- Strictly-greater test for the descending projects sort. -/
def projPayloadGT (a b : ProjPayload) : Bool :=
  decide (dk2LT (projPayloadKey b) (projPayloadKey a))

/-- The maps of the main section for a given selection: collect job bullets
then project bullets, group them by source id, and filter each bucket
(src/main.py lines 339-433). -/
def mainBulletMaps (jobs projects : List Entry) (selection : Selection) :
    BulletMaps :=
  (buildBucketsIf mainBucketCond
    (selection.selected_jobs.flatMap
        (collectItemBullets (dictGet jobs) SType.job) ++
      selection.selected_projects.flatMap
        (collectItemBullets (dictGet projects) SType.project))).foldl
    processBucket ⟨[], [], []⟩

/-- Job-id to final text list for the experience section, after rank
sorting and the refill pass. -/
def jobTextsMap (jobs projects : List Entry) (selection : Selection) :
    List (String × List String) :=
  refillAll (dictGet jobs) 4 (mainBulletMaps jobs projects selection).keptMap
    selection.selected_jobs
    (mapToTexts (mainBulletMaps jobs projects selection).jobMap)

/-- Project-id to final text list (projects are not refilled in
build_payload). -/
def projTextsMap (jobs projects : List Entry) (selection : Selection) :
    List (String × List String) :=
  mapToTexts (mainBulletMaps jobs projects selection).projMap

/-- The maps of the additional-experience section (src/main.py lines
544-587). -/
def addBulletMaps (jobs additionalJobs : List Entry)
    (selection : Selection) : AddMaps :=
  (buildBucketsIf addBucketCond
    (selection.additional_experience.flatMap
      (collectItemBullets (addLookup additionalJobs jobs)
        SType.additionalJob))).foldl processBucketAdd ⟨[], []⟩

/-- Additional-experience id to final text list, after rank sorting and the
refill-to-3 pass. -/
def addTextsMap (jobs additionalJobs : List Entry) (selection : Selection) :
    List (String × List String) :=
  refillAll (addLookup additionalJobs jobs) 3
    (addBulletMaps jobs additionalJobs selection).keptMap
    selection.additional_experience
    (mapToTexts (addBulletMaps jobs additionalJobs selection).addMap)

/-- The rendered payload handed to the templating stage; name, contact,
skills and education are passed through verbatim by the source and carry no
claim, so only the three computed lists are modelled. -/
structure Payload where
  experience : List ExpPayload
  projects : List ProjPayload
  additional_experience : List ExpPayload
deriving DecidableEq, Repr, Inhabited

/-- Embedding of `build_payload` (src/main.py lines 325-654). -/
def build_payload (jobs projects additionalJobs : List Entry)
    (selection : Selection) (force_additional_experience : Bool) : Payload :=
  { experience := sortDesc expPayloadGT
      (buildExpEntries (dictGet jobs) selection.selected_jobs
        (jobTextsMap jobs projects selection)),
    projects := sortDesc projPayloadGT
      (buildProjEntries (dictGet projects) selection.selected_projects
        (projTextsMap jobs projects selection)),
    additional_experience :=
      if selection.additional_experience.isEmpty ∧
          force_additional_experience = false then []
      else sortDesc expPayloadGT
        (buildExpEntries (addLookup additionalJobs jobs)
          selection.additional_experience
          (addTextsMap jobs additionalJobs selection)) }

theorem mem_insertDesc (gt : α → α → Bool) (x a : α) (l : List α) :
    a ∈ insertDesc gt x l ↔ a = x ∨ a ∈ l := by
  induction l with
  | nil => simp [insertDesc]
  | cons y ys ih =>
    unfold insertDesc
    by_cases hgt : gt y x = true
    · rw [if_pos hgt]
      simp only [List.mem_cons, ih]
      tauto
    · rw [if_neg hgt]
      simp only [List.mem_cons]

theorem mem_sortDesc (gt : α → α → Bool) (l : List α) (a : α) :
    a ∈ sortDesc gt l ↔ a ∈ l := by
  induction l with
  | nil => simp [sortDesc]
  | cons x xs ih =>
    unfold sortDesc
    rw [mem_insertDesc, ih]
    simp

theorem buildExpEntries_bullets_ne_nil (look : String → Option Entry)
    (items : List SelItem) (m : List (String × List String)) :
    ∀ e ∈ buildExpEntries look items m, e.bullets ≠ [] := by
  intro e he
  rw [buildExpEntries] at he
  obtain ⟨item, _, hf⟩ := List.mem_filterMap.mp he
  cases hlook : look item.id with
  | none => simp [hlook] at hf
  | some job =>
    simp only [hlook] at hf
    by_cases hbs : ((assocGet m item.id).getD []).isEmpty
    · simp [hbs] at hf
    · simp only [hbs, Bool.false_eq_true, if_neg, not_false_iff,
        Option.some.injEq] at hf
      rw [← hf]
      simpa using hbs

theorem buildProjEntries_bullets_ne_nil (look : String → Option Entry)
    (items : List SelItem) (m : List (String × List String)) :
    ∀ p ∈ buildProjEntries look items m, p.bullets ≠ [] := by
  intro p hp
  rw [buildProjEntries] at hp
  obtain ⟨item, _, hf⟩ := List.mem_filterMap.mp hp
  cases hlook : look item.id with
  | none => simp [hlook] at hf
  | some pr =>
    simp only [hlook] at hf
    by_cases hbs : ((assocGet m item.id).getD []).isEmpty
    · simp [hbs] at hf
    · simp only [hbs, Bool.false_eq_true, if_neg, not_false_iff,
        Option.some.injEq] at hf
      rw [← hf]
      simpa using hbs

/-- C7 amended: every entry emitted in the rendered payload — experience,
additional experience, or project — has a non-empty bullet list, i.e.
entries whose bullet list is empty after filtering are dropped entirely.
(Individual bullet texts may still be empty strings: see the
counterexample.) -/
theorem payload_entries_have_bullets (jobs projects additionalJobs :
    List Entry) (selection : Selection) (force : Bool) :
    (∀ e ∈ (build_payload jobs projects additionalJobs selection
        force).experience, e.bullets ≠ []) ∧
    (∀ p ∈ (build_payload jobs projects additionalJobs selection
        force).projects, p.bullets ≠ []) ∧
    (∀ e ∈ (build_payload jobs projects additionalJobs selection
        force).additional_experience, e.bullets ≠ []) := by
  refine ⟨?_, ?_, ?_⟩
  · intro e he
    simp only [build_payload] at he
    rw [mem_sortDesc] at he
    exact buildExpEntries_bullets_ne_nil _ _ _ e he
  · intro p hp
    simp only [build_payload] at hp
    rw [mem_sortDesc] at hp
    exact buildProjEntries_bullets_ne_nil _ _ _ p hp
  · intro e he
    simp only [build_payload] at he
    by_cases hgate : selection.additional_experience.isEmpty ∧
        force = false
    · rw [if_pos hgate] at he
      cases he
    · rw [if_neg hgate] at he
      rw [mem_sortDesc] at he
      exact buildExpEntries_bullets_ne_nil _ _ _ e he

/-- Job with a second bullet whose text is the empty string. -/
def entryEmptyText : Entry :=
  { id := "j1", title := "T", company := "C", location := "", name := "",
    start_date := none, end_date := none, priority := none,
    bullets := [RawBullet.str "A", RawBullet.str ""],
    link := none, links := none }

/-- Selection referencing both bullets of `entryEmptyText`. -/
def selEmptyText : Selection :=
  { selected_jobs := [⟨"j1", [0, 1]⟩], selected_projects := [],
    additional_experience := [] }

/-- C7 counterexample: an entry can be emitted whose bullet list contains
the empty string — no empty-text filtering happens in payload assembly. -/
theorem payload_emits_empty_bullet_text :
    ∃ e ∈ (build_payload [entryEmptyText] [] [] selEmptyText
      false).experience, "" ∈ e.bullets := by
  decide

/-- Witness for C7 amended at a concrete payload. -/
theorem payload_entries_have_bullets_witness :
    ((build_payload [entryEmptyText] [] [] selEmptyText
        false).experience.headD default).bullets ≠ [] :=
  (payload_entries_have_bullets [entryEmptyText] [] [] selEmptyText
    false).1 _ (by decide)

theorem dictGet_foldl_mem (idv : String) (e : Entry) (pool : List Entry) :
    ∀ acc : Option Entry,
      pool.foldl (fun acc x => if x.id = idv then some x else acc) acc =
        some e →
      acc = some e ∨ e ∈ pool := by
  induction pool with
  | nil => intro acc h; exact Or.inl h
  | cons x pool ih =>
    intro acc h
    rw [List.foldl_cons] at h
    rcases ih _ h with hstep | hmem
    · by_cases hx : x.id = idv
      · rw [if_pos hx] at hstep
        cases hstep
        exact Or.inr (List.mem_cons_self _ _)
      · rw [if_neg hx] at hstep
        exact Or.inl hstep
    · exact Or.inr (List.mem_cons_of_mem _ hmem)

theorem dictGet_mem (pool : List Entry) (idv : String) (e : Entry)
    (h : dictGet pool idv = some e) : e ∈ pool := by
  rcases dictGet_foldl_mem idv e pool none h with hc | hc
  · cases hc
  · exact hc

theorem addLookup_mem (additionalJobs jobs : List Entry) (idv : String)
    (e : Entry) (h : addLookup additionalJobs jobs idv = some e) :
    e ∈ additionalJobs ∨ e ∈ jobs := by
  unfold addLookup at h
  cases hd : dictGet additionalJobs idv with
  | some j =>
    rw [hd] at h
    cases h
    exact Or.inl (dictGet_mem _ _ _ hd)
  | none =>
    rw [hd] at h
    exact Or.inr (dictGet_mem _ _ _ h)

/-- All bullet texts, after normalization, of all entries of a pool — the
universe any emitted bullet text must come from. -/
def poolTexts (pool : List Entry) : List String :=
  pool.flatMap (fun en => en.bullets.map (fun rb => (_normalize_bullet rb).text))

theorem entry_text_mem (pool : List Entry) (e : Entry) (he : e ∈ pool)
    (idx : Nat) (hidx : idx < e.bullets.length) :
    (_normalize_bullet (e.bullets.getD idx default)).text ∈ poolTexts pool := by
  rw [poolTexts, List.mem_flatMap]
  refine ⟨e, he, List.mem_map.mpr ⟨e.bullets.getD idx default, ?_, rfl⟩⟩
  rw [List.getD_eq_getElem?_getD, List.getElem?_eq_getElem hidx]
  exact List.getElem_mem _

theorem collect_text_mem (look : String → Option Entry) (pool : List Entry)
    (st : SType) (item : SelItem)
    (hl : ∀ s en, look s = some en → en ∈ pool) :
    ∀ b ∈ collectItemBullets look st item, b.text ∈ poolTexts pool := by
  intro b hb
  unfold collectItemBullets at hb
  cases hlook : look item.id with
  | none => simp [hlook] at hb
  | some job =>
    simp only [hlook] at hb
    obtain ⟨p, _, hf⟩ := List.mem_filterMap.mp hb
    by_cases hr : 0 ≤ p.2 ∧ p.2 < (job.bullets.length : Int)
    · rw [if_pos hr] at hf
      cases hf
      have hlt : p.2.toNat < job.bullets.length := by omega
      exact entry_text_mem pool job (hl _ _ hlook) p.2.toNat hlt
    · rw [if_neg hr] at hf
      cases hf

/-- All bullets stored in a bucket map. -/
def bucketVals (m : List (String × List MBullet)) : List MBullet :=
  m.flatMap (fun p => p.2)

theorem bucketInsert_vals_sub (key : String) (b : MBullet)
    (m : List (String × List MBullet)) :
    ∀ x ∈ bucketVals (bucketInsert key b m), x ∈ bucketVals m ∨ x = b := by
  induction m with
  | nil =>
    intro x hx
    simp [bucketInsert, bucketVals] at hx
    exact Or.inr hx
  | cons q rest ih =>
    obtain ⟨k, l⟩ := q
    intro x hx
    unfold bucketInsert at hx
    by_cases hk : k = key
    · rw [if_pos hk] at hx
      simp only [bucketVals, List.flatMap_cons, List.mem_append,
        List.mem_singleton] at hx ⊢
      tauto
    · rw [if_neg hk] at hx
      simp only [bucketVals, List.flatMap_cons, List.mem_append] at hx ⊢
      rcases hx with hx | hx
      · tauto
      · have hih := ih x (by simpa [bucketVals] using hx)
        simp only [bucketVals] at hih
        tauto

theorem buildBucketsIf_vals_fold (cond : MBullet → Bool)
    (bs : List MBullet) :
    ∀ acc : List (String × List MBullet),
      ∀ x ∈ bucketVals (bs.foldl (fun acc b =>
        if cond b then bucketInsert b.source_id b acc else acc) acc),
      x ∈ bucketVals acc ∨ x ∈ bs := by
  induction bs with
  | nil => intro acc x hx; exact Or.inl hx
  | cons b bs ih =>
    intro acc x hx
    rw [List.foldl_cons] at hx
    rcases ih _ x hx with hx' | hx'
    · by_cases hc : cond b = true
      · rw [if_pos hc] at hx'
        rcases bucketInsert_vals_sub _ _ _ x hx' with h | h
        · exact Or.inl h
        · exact Or.inr (h ▸ List.mem_cons_self _ _)
      · rw [if_neg hc] at hx'
        exact Or.inl hx'
    · exact Or.inr (List.mem_cons_of_mem _ hx')

theorem buildBucketsIf_vals_sub (cond : MBullet → Bool) (bs : List MBullet) :
    ∀ x ∈ bucketVals (buildBucketsIf cond bs), x ∈ bs := by
  intro x hx
  rcases buildBucketsIf_vals_fold cond bs [] x hx with h | h
  · cases h
  · exact h

theorem buildBucketsIf_bucket_sub (cond : MBullet → Bool) (bs : List MBullet)
    (bk : String × List MBullet) (hbk : bk ∈ buildBucketsIf cond bs) :
    ∀ b ∈ bk.2, b ∈ bs := by
  intro b hb
  exact buildBucketsIf_vals_sub cond bs b
    (by rw [bucketVals, List.mem_flatMap]; exact ⟨bk, hbk, hb⟩)

theorem mem_insertRank (x a : Nat × String) (l : List (Nat × String)) :
    a ∈ insertRank x l ↔ a = x ∨ a ∈ l := by
  induction l with
  | nil => simp [insertRank]
  | cons y ys ih =>
    unfold insertRank
    by_cases hgt : y.1 < x.1
    · rw [if_pos hgt]
      simp only [List.mem_cons, ih]
      tauto
    · rw [if_neg hgt]
      simp only [List.mem_cons]

theorem mem_sortRank (l : List (Nat × String)) (a : Nat × String) :
    a ∈ sortRank l ↔ a ∈ l := by
  induction l with
  | nil => simp [sortRank]
  | cons x xs ih =>
    unfold sortRank
    rw [mem_insertRank, ih]
    simp

/-- Every text stored in a (rank, text)-pair map satisfies `P`. -/
def pairsOK (m : List (String × List (Nat × String))) (P : String → Prop) :
    Prop :=
  ∀ q ∈ m, ∀ p ∈ q.2, P p.2

/-- Every text stored in a text-list map satisfies `P`. -/
def textsOK (m : List (String × List String)) (P : String → Prop) : Prop :=
  ∀ q ∈ m, ∀ t ∈ q.2, P t

theorem assocExtend_pairsOK (m : List (String × List (Nat × String)))
    (k : String) (vs : List (Nat × String)) (P : String → Prop)
    (hm : pairsOK m P) (hvs : ∀ p ∈ vs, P p.2) :
    pairsOK (assocExtend m k vs) P := by
  induction m with
  | nil =>
    intro q hq p hp
    simp only [assocExtend, List.mem_singleton] at hq
    subst hq
    exact hvs p hp
  | cons q0 rest ih =>
    obtain ⟨k0, l0⟩ := q0
    intro q hq p hp
    unfold assocExtend at hq
    by_cases hk : k0 = k
    · rw [if_pos hk] at hq
      rcases List.mem_cons.mp hq with hEq | hmem
      · subst hEq
        rcases List.mem_append.mp hp with hp' | hp'
        · exact hm (k0, l0) (List.mem_cons_self _ _) p hp'
        · exact hvs p hp'
      · exact hm q (List.mem_cons_of_mem _ hmem) p hp
    · rw [if_neg hk] at hq
      rcases List.mem_cons.mp hq with hEq | hmem
      · subst hEq
        exact hm (k0, l0) (List.mem_cons_self _ _) p hp
      · exact ih (fun q' hq' => hm q' (List.mem_cons_of_mem _ hq')) q hmem p hp

theorem assocSet_textsOK (m : List (String × List String)) (k : String)
    (v : List String) (P : String → Prop) (hm : textsOK m P)
    (hv : ∀ t ∈ v, P t) : textsOK (assocSet m k v) P := by
  induction m with
  | nil =>
    intro q hq t ht
    simp only [assocSet, List.mem_singleton] at hq
    subst hq
    exact hv t ht
  | cons q0 rest ih =>
    obtain ⟨k0, l0⟩ := q0
    intro q hq t ht
    unfold assocSet at hq
    by_cases hk : k0 = k
    · rw [if_pos hk] at hq
      rcases List.mem_cons.mp hq with hEq | hmem
      · subst hEq
        exact hv t ht
      · exact hm q (List.mem_cons_of_mem _ hmem) t ht
    · rw [if_neg hk] at hq
      rcases List.mem_cons.mp hq with hEq | hmem
      · subst hEq
        exact hm (k0, l0) (List.mem_cons_self _ _) t ht
      · exact ih (fun q' hq' => hm q' (List.mem_cons_of_mem _ hq')) q hmem t ht

theorem assocGet_textsOK (m : List (String × List String)) (k : String)
    (l : List String) (P : String → Prop) (hm : textsOK m P)
    (h : assocGet m k = some l) : ∀ t ∈ l, P t := by
  induction m with
  | nil => cases h
  | cons q0 rest ih =>
    obtain ⟨k0, l0⟩ := q0
    unfold assocGet at h
    by_cases hk : k0 = k
    · rw [if_pos hk] at h
      cases h
      exact hm (k0, l) (List.mem_cons_self _ _)
    · rw [if_neg hk] at h
      exact ih (fun q' hq' => hm q' (List.mem_cons_of_mem _ hq')) h

theorem processBucket_fold_OK (P : String → Prop)
    (buckets : List (String × List MBullet))
    (hb : ∀ bk ∈ buckets, ∀ b ∈ bk.2, P b.text) :
    ∀ maps₀ : BulletMaps, pairsOK maps₀.jobMap P → pairsOK maps₀.projMap P →
      pairsOK (buckets.foldl processBucket maps₀).jobMap P ∧
      pairsOK (buckets.foldl processBucket maps₀).projMap P := by
  induction buckets with
  | nil => intro maps₀ hj hp; exact ⟨hj, hp⟩
  | cons bk rest ih =>
    intro maps₀ hj hp
    rw [List.foldl_cons]
    have hbk := hb bk (List.mem_cons_self _ _)
    have hrest : ∀ bk' ∈ rest, ∀ b ∈ bk'.2, P b.text :=
      fun bk' hbk' => hb bk' (List.mem_cons_of_mem _ hbk')
    have hstep : pairsOK (processBucket maps₀ bk).jobMap P ∧
        pairsOK (processBucket maps₀ bk).projMap P := by
      unfold processBucket
      cases hb2 : bk.2 with
      | nil => exact ⟨hj, hp⟩
      | cons b0 tl =>
        have hfilter : ∀ b ∈ _filter_conflicting_bullets MBullet.group
            (b0 :: tl), P b.text := by
          intro b hbf
          apply hbk
          rw [hb2]
          exact (filterConflictAux_sublist _ _ _).subset hbf
        dsimp only
        cases hst : b0.sType with
        | job =>
          dsimp only
          refine ⟨?_, hp⟩
          apply assocExtend_pairsOK _ _ _ _ hj
          intro p hpm
          obtain ⟨b, hbm, hbe⟩ := List.mem_map.mp hpm
          rw [← hbe]
          exact hfilter b hbm
        | project =>
          dsimp only
          refine ⟨hj, ?_⟩
          apply assocExtend_pairsOK _ _ _ _ hp
          intro p hpm
          obtain ⟨b, hbm, hbe⟩ := List.mem_map.mp hpm
          rw [← hbe]
          exact hfilter b hbm
        | additionalJob => exact ⟨hj, hp⟩
    exact ih hrest (processBucket maps₀ bk) hstep.1 hstep.2

theorem processBucketAdd_fold_OK (P : String → Prop)
    (buckets : List (String × List MBullet))
    (hb : ∀ bk ∈ buckets, ∀ b ∈ bk.2, P b.text) :
    ∀ maps₀ : AddMaps, pairsOK maps₀.addMap P →
      pairsOK (buckets.foldl processBucketAdd maps₀).addMap P := by
  induction buckets with
  | nil => intro maps₀ ha; exact ha
  | cons bk rest ih =>
    intro maps₀ ha
    rw [List.foldl_cons]
    have hbk := hb bk (List.mem_cons_self _ _)
    have hrest : ∀ bk' ∈ rest, ∀ b ∈ bk'.2, P b.text :=
      fun bk' hbk' => hb bk' (List.mem_cons_of_mem _ hbk')
    refine ih hrest (processBucketAdd maps₀ bk) ?_
    unfold processBucketAdd
    dsimp only
    apply assocExtend_pairsOK _ _ _ _ ha
    intro p hpm
    obtain ⟨b, hbm, hbe⟩ := List.mem_map.mp hpm
    rw [← hbe]
    exact hbk b ((filterConflictAux_sublist _ _ _).subset hbm)

theorem mapToTexts_OK (m : List (String × List (Nat × String)))
    (P : String → Prop) (hm : pairsOK m P) : textsOK (mapToTexts m) P := by
  intro q hq t ht
  rw [mapToTexts] at hq
  obtain ⟨q0, hq0, hqe⟩ := List.mem_map.mp hq
  rw [← hqe] at ht
  dsimp only at ht
  rw [ranksToTexts] at ht
  obtain ⟨p, hpm, hpe⟩ := List.mem_map.mp ht
  rw [mem_sortRank] at hpm
  rw [← hpe]
  exact hm q0 hq0 p hpm

theorem rebuildTexts_sub (pool : List Entry) (job : Entry)
    (hjob : job ∈ pool) (indices : List Int) :
    ∀ t ∈ rebuildTexts job indices, t ∈ poolTexts pool := by
  intro t ht
  rw [rebuildTexts] at ht
  obtain ⟨idx, _, hf⟩ := List.mem_filterMap.mp ht
  by_cases hr : 0 ≤ idx ∧ idx < (job.bullets.length : Int)
  · rw [if_pos hr] at hf
    cases hf
    have hlt : idx.toNat < job.bullets.length := by omega
    exact entry_text_mem pool job hjob idx.toNat hlt
  · rw [if_neg hr] at hf
    cases hf

theorem refillAll_OK (look : String → Option Entry) (pool : List Entry)
    (floor : Nat) (keptMap : List (String × List Int))
    (items : List SelItem) (m : List (String × List String))
    (hl : ∀ s en, look s = some en → en ∈ pool)
    (hm : textsOK m (fun t => t ∈ poolTexts pool)) :
    textsOK (refillAll look floor keptMap items m)
      (fun t => t ∈ poolTexts pool) := by
  rw [refillAll]
  induction items generalizing m with
  | nil => exact hm
  | cons item rest ih =>
    rw [List.foldl_cons]
    apply ih
    unfold refillStep
    cases hlook : look item.id with
    | none => exact hm
    | some job =>
      dsimp only
      by_cases hcond : ((assocGet m item.id).getD []).length < floor
      · rw [if_pos hcond]
        apply assocSet_textsOK _ _ _ _ hm
        exact rebuildTexts_sub pool job (hl _ _ hlook) _
      · rw [if_neg hcond]
        exact hm

theorem buildExpEntries_texts_OK (look : String → Option Entry)
    (items : List SelItem) (m : List (String × List String))
    (P : String → Prop) (hm : textsOK m P) :
    ∀ e ∈ buildExpEntries look items m, ∀ t ∈ e.bullets, P t := by
  intro e he t ht
  rw [buildExpEntries] at he
  obtain ⟨item, _, hf⟩ := List.mem_filterMap.mp he
  cases hlook : look item.id with
  | none => simp [hlook] at hf
  | some job =>
    simp only [hlook] at hf
    by_cases hbs : ((assocGet m item.id).getD []).isEmpty
    · simp [hbs] at hf
    · simp only [hbs, Bool.false_eq_true, if_neg, not_false_iff,
        Option.some.injEq] at hf
      rw [← hf] at ht
      dsimp only at ht
      cases hget : assocGet m item.id with
      | none => rw [hget] at ht; cases ht
      | some l =>
        rw [hget] at ht
        exact assocGet_textsOK m item.id l P hm hget t ht

theorem buildProjEntries_texts_OK (look : String → Option Entry)
    (items : List SelItem) (m : List (String × List String))
    (P : String → Prop) (hm : textsOK m P) :
    ∀ p ∈ buildProjEntries look items m, ∀ t ∈ p.bullets, P t := by
  intro p hp t ht
  rw [buildProjEntries] at hp
  obtain ⟨item, _, hf⟩ := List.mem_filterMap.mp hp
  cases hlook : look item.id with
  | none => simp [hlook] at hf
  | some pr =>
    simp only [hlook] at hf
    by_cases hbs : ((assocGet m item.id).getD []).isEmpty
    · simp [hbs] at hf
    · simp only [hbs, Bool.false_eq_true, if_neg, not_false_iff,
        Option.some.injEq] at hf
      rw [← hf] at ht
      dsimp only at ht
      cases hget : assocGet m item.id with
      | none => rw [hget] at ht; cases ht
      | some l =>
        rw [hget] at ht
        exact assocGet_textsOK m item.id l P hm hget t ht

theorem flatMap_middle_nil (f : α → List β) (l1 l2 : List α) (item : α)
    (hf : f item = []) :
    (l1 ++ item :: l2).flatMap f = (l1 ++ l2).flatMap f := by
  simp [hf]

theorem foldl_middle_id (f : β → α → β) (l1 l2 : List α) (item : α)
    (hf : ∀ b, f b item = b) (init : β) :
    (l1 ++ item :: l2).foldl f init = (l1 ++ l2).foldl f init := by
  rw [List.foldl_append, List.foldl_append, List.foldl_cons, hf]

theorem filterMap_middle_none (f : α → Option β) (l1 l2 : List α) (item : α)
    (hf : f item = none) :
    (l1 ++ item :: l2).filterMap f = (l1 ++ l2).filterMap f := by
  simp [hf]

theorem build_payload_drop_absent_job (jobs projects additionalJobs :
    List Entry) (force : Bool) (l1 l2 ps ads : List SelItem)
    (item : SelItem) (h : dictGet jobs item.id = none) :
    build_payload jobs projects additionalJobs
      ⟨l1 ++ item :: l2, ps, ads⟩ force =
    build_payload jobs projects additionalJobs ⟨l1 ++ l2, ps, ads⟩ force := by
  have hcoll : collectItemBullets (dictGet jobs) SType.job item = [] := by
    simp [collectItemBullets, h]
  have hrefill : ∀ (K : List (String × List Int))
      (m : List (String × List String)),
      refillStep (dictGet jobs) 4 K m item = m := by
    intro K m
    simp [refillStep, h]
  have hmaps : mainBulletMaps jobs projects ⟨l1 ++ item :: l2, ps, ads⟩ =
      mainBulletMaps jobs projects ⟨l1 ++ l2, ps, ads⟩ := by
    unfold mainBulletMaps
    dsimp only
    rw [flatMap_middle_nil _ l1 l2 item hcoll]
  have hjt : jobTextsMap jobs projects ⟨l1 ++ item :: l2, ps, ads⟩ =
      jobTextsMap jobs projects ⟨l1 ++ l2, ps, ads⟩ := by
    unfold jobTextsMap refillAll
    dsimp only
    rw [hmaps, foldl_middle_id _ l1 l2 item (hrefill _)]
  have hpt : projTextsMap jobs projects ⟨l1 ++ item :: l2, ps, ads⟩ =
      projTextsMap jobs projects ⟨l1 ++ l2, ps, ads⟩ := by
    unfold projTextsMap
    rw [hmaps]
  have hexp : ∀ m : List (String × List String),
      buildExpEntries (dictGet jobs) (l1 ++ item :: l2) m =
      buildExpEntries (dictGet jobs) (l1 ++ l2) m := by
    intro m
    unfold buildExpEntries
    apply filterMap_middle_none
    simp [h]
  unfold build_payload
  dsimp only
  rw [hjt, hpt, hexp]
  rfl

theorem build_payload_drop_absent_project (jobs projects additionalJobs :
    List Entry) (force : Bool) (js l1 l2 ads : List SelItem)
    (item : SelItem) (h : dictGet projects item.id = none) :
    build_payload jobs projects additionalJobs
      ⟨js, l1 ++ item :: l2, ads⟩ force =
    build_payload jobs projects additionalJobs ⟨js, l1 ++ l2, ads⟩ force := by
  have hcoll : collectItemBullets (dictGet projects) SType.project item
      = [] := by
    simp [collectItemBullets, h]
  have hmaps : mainBulletMaps jobs projects ⟨js, l1 ++ item :: l2, ads⟩ =
      mainBulletMaps jobs projects ⟨js, l1 ++ l2, ads⟩ := by
    unfold mainBulletMaps
    dsimp only
    rw [flatMap_middle_nil _ l1 l2 item hcoll]
  have hjt : jobTextsMap jobs projects ⟨js, l1 ++ item :: l2, ads⟩ =
      jobTextsMap jobs projects ⟨js, l1 ++ l2, ads⟩ := by
    unfold jobTextsMap
    rw [hmaps]
  have hpt : projTextsMap jobs projects ⟨js, l1 ++ item :: l2, ads⟩ =
      projTextsMap jobs projects ⟨js, l1 ++ l2, ads⟩ := by
    unfold projTextsMap
    rw [hmaps]
  have hproj : ∀ m : List (String × List String),
      buildProjEntries (dictGet projects) (l1 ++ item :: l2) m =
      buildProjEntries (dictGet projects) (l1 ++ l2) m := by
    intro m
    unfold buildProjEntries
    apply filterMap_middle_none
    simp [h]
  unfold build_payload
  dsimp only
  rw [hjt, hpt, hproj]
  rfl

theorem build_payload_texts_pool (jobs projects additionalJobs : List Entry)
    (selection : Selection) (force : Bool) :
    (∀ e ∈ (build_payload jobs projects additionalJobs selection
        force).experience, ∀ t ∈ e.bullets, t ∈ poolTexts (jobs ++ projects)) ∧
    (∀ p ∈ (build_payload jobs projects additionalJobs selection
        force).projects, ∀ t ∈ p.bullets, t ∈ poolTexts (jobs ++ projects)) ∧
    (∀ e ∈ (build_payload jobs projects additionalJobs selection
        force).additional_experience, ∀ t ∈ e.bullets,
        t ∈ poolTexts (jobs ++ additionalJobs)) := by
  have hlJP : ∀ s en, dictGet jobs s = some en → en ∈ jobs ++ projects :=
    fun s en h => List.mem_append_left _ (dictGet_mem _ _ _ h)
  have hlPP : ∀ s en, dictGet projects s = some en → en ∈ jobs ++ projects :=
    fun s en h => List.mem_append_right _ (dictGet_mem _ _ _ h)
  have hlAdd : ∀ s en, addLookup additionalJobs jobs s = some en →
      en ∈ jobs ++ additionalJobs := by
    intro s en h
    rcases addLookup_mem _ _ _ _ h with h' | h'
    · exact List.mem_append_right _ h'
    · exact List.mem_append_left _ h'
  have hcoll : ∀ b ∈ (selection.selected_jobs.flatMap
      (collectItemBullets (dictGet jobs) SType.job) ++
      selection.selected_projects.flatMap
      (collectItemBullets (dictGet projects) SType.project)),
      b.text ∈ poolTexts (jobs ++ projects) := by
    intro b hb
    rcases List.mem_append.mp hb with hb | hb
    · obtain ⟨it, _, hbi⟩ := List.mem_flatMap.mp hb
      exact collect_text_mem _ _ _ _ hlJP b hbi
    · obtain ⟨it, _, hbi⟩ := List.mem_flatMap.mp hb
      exact collect_text_mem _ _ _ _ hlPP b hbi
  have hbuck : ∀ bk ∈ buildBucketsIf mainBucketCond
      (selection.selected_jobs.flatMap
        (collectItemBullets (dictGet jobs) SType.job) ++
      selection.selected_projects.flatMap
        (collectItemBullets (dictGet projects) SType.project)),
      ∀ b ∈ bk.2, b.text ∈ poolTexts (jobs ++ projects) := by
    intro bk hbk b hb
    exact hcoll b (buildBucketsIf_bucket_sub _ _ bk hbk b hb)
  have hmapsOK := processBucket_fold_OK
    (fun t => t ∈ poolTexts (jobs ++ projects)) _ hbuck ⟨[], [], []⟩
    (by intro q hq; cases hq) (by intro q hq; cases hq)
  have hjobTexts : textsOK (jobTextsMap jobs projects selection)
      (fun t => t ∈ poolTexts (jobs ++ projects)) :=
    refillAll_OK (dictGet jobs) (jobs ++ projects) 4
      (mainBulletMaps jobs projects selection).keptMap
      selection.selected_jobs
      (mapToTexts (mainBulletMaps jobs projects selection).jobMap) hlJP
      (mapToTexts_OK _ _ hmapsOK.1)
  have hprojTexts : textsOK (projTextsMap jobs projects selection)
      (fun t => t ∈ poolTexts (jobs ++ projects)) :=
    mapToTexts_OK _ _ hmapsOK.2
  refine ⟨?_, ?_, ?_⟩
  · intro e he t ht
    simp only [build_payload] at he
    rw [mem_sortDesc] at he
    exact buildExpEntries_texts_OK _ _ _ _ hjobTexts e he t ht
  · intro p hp t ht
    simp only [build_payload] at hp
    rw [mem_sortDesc] at hp
    exact buildProjEntries_texts_OK _ _ _ _ hprojTexts p hp t ht
  · intro e he t ht
    simp only [build_payload] at he
    by_cases hgate : selection.additional_experience.isEmpty ∧ force = false
    · rw [if_pos hgate] at he
      cases he
    · rw [if_neg hgate] at he
      rw [mem_sortDesc] at he
      have hcollA : ∀ b ∈ selection.additional_experience.flatMap
          (collectItemBullets (addLookup additionalJobs jobs)
            SType.additionalJob),
          b.text ∈ poolTexts (jobs ++ additionalJobs) := by
        intro b hb
        obtain ⟨it, _, hbi⟩ := List.mem_flatMap.mp hb
        exact collect_text_mem _ _ _ _ hlAdd b hbi
      have hbuckA : ∀ bk ∈ buildBucketsIf addBucketCond
          (selection.additional_experience.flatMap
            (collectItemBullets (addLookup additionalJobs jobs)
              SType.additionalJob)),
          ∀ b ∈ bk.2, b.text ∈ poolTexts (jobs ++ additionalJobs) := by
        intro bk hbk b hb
        exact hcollA b (buildBucketsIf_bucket_sub _ _ bk hbk b hb)
      have haddOK := processBucketAdd_fold_OK
        (fun t => t ∈ poolTexts (jobs ++ additionalJobs)) _ hbuckA ⟨[], []⟩
        (by intro q hq; cases hq)
      have haddTexts : textsOK (addTextsMap jobs additionalJobs selection)
          (fun t => t ∈ poolTexts (jobs ++ additionalJobs)) :=
        refillAll_OK (addLookup additionalJobs jobs)
          (jobs ++ additionalJobs) 3
          (addBulletMaps jobs additionalJobs selection).keptMap
          selection.additional_experience
          (mapToTexts (addBulletMaps jobs additionalJobs selection).addMap)
          hlAdd (mapToTexts_OK _ _ haddOK)
      exact buildExpEntries_texts_OK _ _ _ _ haddTexts e he t ht

/-- C9: a Selection Item whose entry identifier is absent from the pool
contributes nothing to the payload (removing it changes nothing), and a
bullet index outside the valid positions of its entry is silently skipped —
every emitted bullet text comes from an in-range bullet of a pool entry;
the embedding is total, so neither condition raises or aborts. -/
theorem reference_faults_ignored :
    (∀ (jobs projects additionalJobs : List Entry) (force : Bool)
        (l1 l2 ps ads : List SelItem) (item : SelItem),
      dictGet jobs item.id = none →
      build_payload jobs projects additionalJobs
        ⟨l1 ++ item :: l2, ps, ads⟩ force =
      build_payload jobs projects additionalJobs
        ⟨l1 ++ l2, ps, ads⟩ force) ∧
    (∀ (jobs projects additionalJobs : List Entry) (force : Bool)
        (js l1 l2 ads : List SelItem) (item : SelItem),
      dictGet projects item.id = none →
      build_payload jobs projects additionalJobs
        ⟨js, l1 ++ item :: l2, ads⟩ force =
      build_payload jobs projects additionalJobs
        ⟨js, l1 ++ l2, ads⟩ force) ∧
    (∀ (jobs projects additionalJobs : List Entry) (selection : Selection)
        (force : Bool),
      (∀ e ∈ (build_payload jobs projects additionalJobs selection
          force).experience, ∀ t ∈ e.bullets,
          t ∈ poolTexts (jobs ++ projects)) ∧
      (∀ p ∈ (build_payload jobs projects additionalJobs selection
          force).projects, ∀ t ∈ p.bullets,
          t ∈ poolTexts (jobs ++ projects)) ∧
      (∀ e ∈ (build_payload jobs projects additionalJobs selection
          force).additional_experience, ∀ t ∈ e.bullets,
          t ∈ poolTexts (jobs ++ additionalJobs))) :=
  ⟨fun jobs projects additionalJobs force l1 l2 ps ads item h =>
    build_payload_drop_absent_job jobs projects additionalJobs force
      l1 l2 ps ads item h,
   fun jobs projects additionalJobs force js l1 l2 ads item h =>
    build_payload_drop_absent_project jobs projects additionalJobs force
      js l1 l2 ads item h,
   fun jobs projects additionalJobs selection force =>
    build_payload_texts_pool jobs projects additionalJobs selection force⟩

/-- Witness for C9 at concrete inputs: dropping an item with the unknown id
"zz" leaves the payload unchanged, and an emitted text comes from the
pool. -/
theorem reference_faults_ignored_witness :
    build_payload [entryEmptyText] [] []
        ⟨[] ++ ⟨"zz", [0]⟩ :: [⟨"j1", [0, 1]⟩], [], []⟩ false =
      build_payload [entryEmptyText] [] []
        ⟨[] ++ [⟨"j1", [0, 1]⟩], [], []⟩ false ∧
    "A" ∈ poolTexts ([entryEmptyText] ++ []) :=
  ⟨reference_faults_ignored.1 [entryEmptyText] [] [] false
    [] [⟨"j1", [0, 1]⟩] [] [] ⟨"zz", [0]⟩ (by decide),
   (reference_faults_ignored.2.2 [entryEmptyText] [] [] selEmptyText
      false).1
    ((build_payload [entryEmptyText] [] [] selEmptyText
      false).experience.headD default) (by decide) "A" (by decide)⟩
